import Mathlib

/-!
Verification development for the NvFuser IR core: a shallow embedding of the
fusion container (`csrc/fusion.cpp` exposed via the sources), the value
replacement utilities, the iteration-domain comparator, and the
cycle-detection / recursive-definition checks of `ir_utils`, together with
theorems settling the specified behavioural claims.

Values and expressions are identified by natural-number ids.  The mutable
per-node fields that the C++ code stores on `Val` objects (definition
pointer, use list, fusion-input/output flags, memory type) are modelled as
finite-support functions inside the container state, and the immutable
structure of expressions (their input/output value lists) lives in a
signature record.
-/

namespace NvFuser

/-- Update a function at one point. -/
def setFn {α : Type} (f : Nat → α) (x : Nat) (a : α) : Nat → α :=
  fun y => if y = x then a else f y

theorem setFn_same {α : Type} (f : Nat → α) (x : Nat) (a : α) :
    setFn f x a x = a := by
  simp [setFn]

theorem setFn_other {α : Type} (f : Nat → α) (x : Nat) (a : α) (y : Nat)
    (h : y ≠ x) : setFn f x a y = f y := by
  simp [setFn, h]

/-- Value categories relevant to the container's behaviour: `ValType::TensorView`,
`ValType::Others` (scalars), and the remaining categories. -/
inductive VKind : Type
  | tensor
  | scalar
  | other
deriving DecidableEq

/-- Immutable structure of the IR nodes: which values are tensors or constant
scalars, and the input/output value lists of every expression. -/
structure FusionSig : Type where
  kind : Nat → VKind
  isConst : Nat → Bool
  exprIns : Nat → List Nat
  exprOuts : Nat → List Nat

/-- `AliasInfo` payload of the `io_alias_` map (`aliased_io` plus the
`hide_output` bit); the `type` tag is irrelevant for the claims and omitted. -/
structure AliasInfo : Type where
  aliasedIo : Nat
  hideOutput : Bool
deriving DecidableEq

/-- Mutable state of a `Fusion` container: registered values and expressions,
declared inputs/outputs, the per-value definition pointer and use list, the
fusion-input/output and global-memory flags, the output alias map, the
use-list-cache validity flag, and whether the container is the non-SSA
`kir::Kernel` flavour. -/
structure FusionState : Type where
  vals : List Nat
  exprs : List Nat
  inputs : List Nat
  outputs : List Nat
  isFusionInput : Nat → Bool
  isFusionOutput : Nat → Bool
  memoryGlobal : Nat → Bool
  definition : Nat → Option Nat
  uses : Nat → List Nat
  ioAlias : Nat → Option AliasInfo
  allTvUsesValid : Bool
  isKernel : Bool

/-- `Fusion::invalidateTvUses`.  Modelled from the spec: the member lives in
`fusion.h` (not among the sources); per the spec every mutating operation
"invalidates the cached use-list validity flag". -/
def invalidateTvUses (st : FusionState) : FusionState :=
  { st with allTvUsesValid := false }

/-- `Val::addUse`.  Modelled from the spec: the member lives in
`ir/base_nodes.cpp` (not among the sources); the spec says registering an
expression "updates each input's use list", and the use list never holds the
same expression twice. -/
def addUse (st : FusionState) (v e : Nat) : FusionState :=
  if e ∈ st.uses v then st
  else { st with uses := setFn st.uses v (st.uses v ++ [e]) }

/-- `Val::removeUse`.  Modelled from the spec: the member lives in
`ir/base_nodes.cpp` (not among the sources); it drops the expression from the
value's use list and, for tensor values, invalidates the use-list cache (the
comment in `Fusion::removeExpr` notes the possible invalidation). -/
def removeUse (sig : FusionSig) (st : FusionState) (v e : Nat) : FusionState :=
  let st := { st with uses := setFn st.uses v ((st.uses v).erase e) }
  if sig.kind v = .tensor then invalidateTvUses st else st

/-- `Fusion::removeExpr`: clears the definition pointer of every output,
detaches the expression from every input's use list, and erases it from the
container; fails if the expression is not registered. -/
def removeExpr (sig : FusionSig) (st : FusionState) (e : Nat) :
    Except String FusionState :=
  if e ∈ st.exprs then
    let st := (sig.exprOuts e).foldl
      (fun s out => { s with definition := setFn s.definition out none }) st
    let st := (sig.exprIns e).foldl (fun s inp => removeUse sig s inp e) st
    .ok { st with exprs := st.exprs.erase e }
  else .error "Cannot remove expr: not in container"

/-- `Fusion::removeVal`: fails on values still declared as fusion inputs or
outputs; otherwise removes the defining expression (if any), then every
registered expression that has the value among its inputs, and finally the
value itself. -/
def removeVal (sig : FusionSig) (st : FusionState) (v : Nat) :
    Except String FusionState :=
  if v ∈ st.vals then
    if st.isFusionInput v then
      .error "Cannot remove val as it is an input of the fusion"
    else if st.isFusionOutput v then
      .error "Cannot remove val as it is an output of the fusion"
    else
      (match st.definition v with
        | some d => removeExpr sig st d
        | none => .ok st) >>= fun st1 =>
      ((st1.exprs.filter (fun e => v ∈ sig.exprIns e)).foldlM
        (fun s e => removeExpr sig s e) st1) >>= fun st2 =>
      .ok { st2 with vals := st2.vals.erase v }
  else .error "Cannot remove val: not in container"

/-- `Fusion::addInput`: tensor inputs get global memory; constant scalars are
rejected; duplicate registration is rejected; otherwise the value is appended
to the input list, flagged, and the use-list cache invalidated.  (In C++ the
global-memory marking happens before the checks; since a failed check aborts
compilation and discards the container, it is applied on the success path.) -/
def addInput (sig : FusionSig) (st : FusionState) (v : Nat) :
    Except String FusionState :=
  if v ∈ st.vals then
    if sig.kind v = .scalar ∧ sig.isConst v then
      .error "Immediate scalar value cannot be added as an input"
    else if st.isFusionInput v then
      .error "already registered as input, duplicated inputs is not allowed"
    else
      let st := if sig.kind v = .tensor then
          { st with memoryGlobal := setFn st.memoryGlobal v true }
        else st
      .ok { st with
        inputs := st.inputs ++ [v],
        isFusionInput := setFn st.isFusionInput v true,
        allTvUsesValid := false }
  else .error "Cannot register input: not in container"

/-- `std::replace_if` step of `Fusion::replaceOutput`: rewrite every
occurrence of `old` in the output list to `new`. -/
def rpoList (st : FusionState) (old new : Nat) : FusionState :=
  { st with outputs := st.outputs.map (fun v => if v = old then new else v) }

/-- `Fusion::replaceOutput` flag updates on the replacement: tensor-shaped
replacements become fusion outputs in global memory. -/
def rpoNewFlags (sig : FusionSig) (st : FusionState) (new : Nat) : FusionState :=
  if sig.kind new = .tensor then
    { st with
      isFusionOutput := setFn st.isFusionOutput new true,
      memoryGlobal := setFn st.memoryGlobal new true }
  else st

/-- `Fusion::replaceOutput` flag updates on the replaced value: tensor-shaped
old outputs lose the fusion-output flag and are demoted to local memory. -/
def rpoOldFlags (sig : FusionSig) (st : FusionState) (old : Nat) : FusionState :=
  if sig.kind old = .tensor then
    { st with
      isFusionOutput := setFn st.isFusionOutput old false,
      memoryGlobal := setFn st.memoryGlobal old false }
  else st

/-- Alias-map migration of `Fusion::replaceOutput` (WAR for issue #1112): an
entry keyed by `old` is erased and re-inserted under `new`. -/
def rpoAlias (st : FusionState) (old new : Nat) : FusionState :=
  match st.ioAlias old with
  | some info =>
      { st with ioAlias := setFn (setFn st.ioAlias old none) new (some info) }
  | none => st

/-- `Fusion::replaceOutput`: fails if `old` is not a registered output;
otherwise rewrites every occurrence in the output list, flips the
output/memory flags on tensor-shaped values, invalidates the use-list cache,
and migrates the alias-map entry of `old` (if any) to `new`. -/
def replaceOutput (sig : FusionSig) (st : FusionState) (old new : Nat) :
    Except String FusionState :=
  if old ∈ st.outputs then
    .ok (rpoAlias
      (invalidateTvUses (rpoOldFlags sig (rpoNewFlags sig (rpoList st old new) new) old))
      old new)
  else .error "Unable to find output in Fusion"

/-- `Fusion::getOutputAlias`: the alias entry of an output, `none` standing
for the static `no_alias_info` fallback. -/
def getOutputAlias (st : FusionState) (v : Nat) : Option AliasInfo :=
  st.ioAlias v

/-- Per-output step of `Fusion::registerExpr`: in single-assignment mode an
existing definition is first removed, then the new definition is installed;
in the kernel (non-SSA) flavour an existing definition is left in place. -/
def registerExprOut (sig : FusionSig) (e : Nat) (s : FusionState) (out : Nat) :
    Except String FusionState :=
  if out ∈ s.vals then
    (match s.definition out with
      | some d => if (! s.isKernel : Bool) = true then removeExpr sig s d
                  else .ok s
      | none => .ok s) >>= fun s =>
    if (! s.isKernel : Bool) = true ∨ s.definition out = none then
      .ok (if sig.kind out = .tensor then
             invalidateTvUses { s with definition := setFn s.definition out (some e) }
           else { s with definition := setFn s.definition out (some e) })
    else
      .ok s
  else .error "Output to expr is invalid"

/-- Per-input step of `Fusion::registerExpr`: tensor inputs invalidate the
whole use-list cache, any other input records the expression in its use
list. -/
def registerExprIn (sig : FusionSig) (e : Nat) (s : FusionState) (input : Nat) :
    Except String FusionState :=
  if input ∈ s.vals then
    if sig.kind input = .tensor then .ok (invalidateTvUses s)
    else .ok (addUse s input e)
  else .error "Input to expr is invalid"

/-- `Fusion::registerExpr`: no-op on an already registered expression;
otherwise registers it, updates each input's use list (invalidating the whole
use-list cache instead for tensor inputs) and installs the definition pointer
on each output subject to the SSA rules of `registerExprOut`. -/
def registerExpr (sig : FusionSig) (st : FusionState) (e : Nat) :
    Except String FusionState :=
  if e ∈ st.exprs then
    .ok st
  else
    ((sig.exprIns e).foldlM (registerExprIn sig e)
        { st with exprs := st.exprs ++ [e] }) >>= fun st1 =>
    (sig.exprOuts e).foldlM (registerExprOut sig e) st1

/-- Final phase of `ValReplacementMutator`'s constructor: for each pair of the
replacement map (modelled as the map's iteration sequence), outputs are
migrated through `Fusion::replaceOutput`. -/
def replaceOutputsFromMap (sig : FusionSig) (st : FusionState)
    (m : List (Nat × Nat)) : Except String FusionState :=
  m.foldlM (fun s p =>
    if s.isFusionOutput p.1 then replaceOutput sig s p.1 p.2 else .ok s) st

/-- Whether an operation raised an `NVF_CHECK` / `NVF_ERROR` failure. -/
def isFailure {α : Type} : Except String α → Bool
  | .error _ => true
  | .ok _ => false

theorem except_bind_ok {α β : Type} {x : Except String α}
    {f : α → Except String β} {b : β} :
    (x >>= f) = Except.ok b ↔ ∃ a, x = Except.ok a ∧ f a = Except.ok b := by
  cases x <;> simp [Bind.bind, Except.bind]

theorem isFailure_of_error {α : Type} {x : Except String α}
    (h : ∀ b : α, x ≠ Except.ok b) : isFailure x = true := by
  cases x with
  | error s => rfl
  | ok b => exact absurd rfl (h b)

/-- A signature in which every value is a non-constant tensor and expressions
have no operands; used by concrete witnesses. -/
def exSig : FusionSig where
  kind := fun _ => VKind.tensor
  isConst := fun _ => false
  exprIns := fun _ => []
  exprOuts := fun _ => []

/-- A container state that already declares value `3` as a fusion input. -/
def exStDup : FusionState where
  vals := [3]
  exprs := []
  inputs := [3]
  outputs := []
  isFusionInput := fun n => decide (n = 3)
  isFusionOutput := fun _ => false
  memoryGlobal := fun _ => false
  definition := fun _ => none
  uses := fun _ => []
  ioAlias := fun _ => none
  allTvUsesValid := true
  isKernel := false

/-- A container state holding value `3` that is not yet an input. -/
def exStFresh : FusionState :=
  { exStDup with inputs := [], isFusionInput := fun _ => false }

/-- A container state declaring tensor `5` as its only output. -/
def exStOut : FusionState :=
  { exStDup with
    vals := [5], inputs := [], isFusionInput := fun _ => false,
    outputs := [5], isFusionOutput := fun n => decide (n = 5),
    memoryGlobal := fun n => decide (n = 5) }

/-- Like `exStOut` but with output `5` aliased to input value `2`. -/
def exStAlias : FusionState :=
  { exStOut with
    vals := [5, 7, 2],
    ioAlias := fun n => if n = 5 then some ⟨2, false⟩ else none }

/-- C9: a second `addInput` on a value already registered as a fusion input
fails, and a successful `addInput(v)` marks a tensor-shaped `v` as
globally-visible memory, appends `v` to the input list, sets its fusion-input
flag, and invalidates the cached use-list validity flag. -/
theorem addInput_spec (sig : FusionSig) (st : FusionState) (v : Nat) :
    (st.isFusionInput v = true → isFailure (addInput sig st v) = true) ∧
    (∀ st', addInput sig st v = Except.ok st' →
      (sig.kind v = VKind.tensor → st'.memoryGlobal v = true) ∧
      st'.inputs = st.inputs ++ [v] ∧
      st'.isFusionInput v = true ∧
      st'.allTvUsesValid = false) := by
  constructor
  · intro hflag
    unfold addInput
    rw [if_pos hflag]
    split
    · split
      · rfl
      · rfl
    · rfl
  · intro st' hok
    unfold addInput at hok
    split at hok
    · split at hok
      · exact absurd hok (by simp)
      · split at hok
        · exact absurd hok (by simp)
        · injection hok with h
          subst h
          refine ⟨?_, ?_, ?_, ?_⟩
          · intro hk
            simp only [if_pos hk]
            simp [setFn]
          · split <;> rfl
          · simp [setFn]
          · rfl
    · exact absurd hok (by simp)

theorem rpoAlias_outputs (st : FusionState) (old new : Nat) :
    (rpoAlias st old new).outputs = st.outputs := by
  unfold rpoAlias
  cases h : st.ioAlias old <;> rfl

theorem rpoAlias_isFusionOutput (st : FusionState) (old new : Nat) :
    (rpoAlias st old new).isFusionOutput = st.isFusionOutput := by
  unfold rpoAlias
  cases h : st.ioAlias old <;> rfl

theorem rpoAlias_memoryGlobal (st : FusionState) (old new : Nat) :
    (rpoAlias st old new).memoryGlobal = st.memoryGlobal := by
  unfold rpoAlias
  cases h : st.ioAlias old <;> rfl

theorem rpoAlias_allTvUsesValid (st : FusionState) (old new : Nat) :
    (rpoAlias st old new).allTvUsesValid = st.allTvUsesValid := by
  unfold rpoAlias
  cases h : st.ioAlias old <;> rfl

theorem rpoAlias_old_none (st : FusionState) (old new : Nat) (hne : old ≠ new) :
    (rpoAlias st old new).ioAlias old = none := by
  unfold rpoAlias
  cases h : st.ioAlias old with
  | none => exact h
  | some info => simp [setFn, hne, Ne.symm hne]

theorem rpoAlias_migrate (st : FusionState) (old new : Nat)
    (info : AliasInfo) (h : st.ioAlias old = some info) :
    (rpoAlias st old new).ioAlias new = some info := by
  unfold rpoAlias
  rw [h]
  simp [setFn]

theorem rpoOldFlags_outputs (sig : FusionSig) (st : FusionState) (old : Nat) :
    (rpoOldFlags sig st old).outputs = st.outputs := by
  unfold rpoOldFlags
  split <;> rfl

theorem rpoOldFlags_ioAlias (sig : FusionSig) (st : FusionState) (old : Nat) :
    (rpoOldFlags sig st old).ioAlias = st.ioAlias := by
  unfold rpoOldFlags
  split <;> rfl

theorem rpoNewFlags_outputs (sig : FusionSig) (st : FusionState) (new : Nat) :
    (rpoNewFlags sig st new).outputs = st.outputs := by
  unfold rpoNewFlags
  split <;> rfl

theorem rpoNewFlags_ioAlias (sig : FusionSig) (st : FusionState) (new : Nat) :
    (rpoNewFlags sig st new).ioAlias = st.ioAlias := by
  unfold rpoNewFlags
  split <;> rfl

/-- C6 counterexample: `replaceOutput(o, o)` with `o` a registered tensor
output succeeds yet leaves `o` in the output list with its fusion-output flag
cleared and its memory demoted to local, contradicting the claim that on
success the output list no longer contains `old` and that `new` ends up
globally visible with its flag set. -/
theorem replaceOutput_self_counterexample :
    ∃ st', replaceOutput exSig exStOut 5 5 = Except.ok st' ∧
      (5 : Nat) ∈ st'.outputs ∧ st'.isFusionOutput 5 = false ∧
      st'.memoryGlobal 5 = false := by
  refine ⟨_, rfl, ?_, ?_, ?_⟩ <;> decide

/-- C6 (amended): `replaceOutput(old, new)` fails when `old` is not a
registered output; on success with `new` distinct from `old` and both
tensor-shaped, the output list contains `new` and no longer contains `old`,
`new` gains the fusion-output flag and global memory, `old` loses both, the
use-list cache is invalidated, and any alias-map entry of `old` migrates to
`new`. -/
theorem replaceOutput_spec (sig : FusionSig) (st : FusionState)
    (old new : Nat) :
    (old ∉ st.outputs → isFailure (replaceOutput sig st old new) = true) ∧
    (∀ st', replaceOutput sig st old new = Except.ok st' →
      old ≠ new →
      sig.kind old = VKind.tensor → sig.kind new = VKind.tensor →
      new ∈ st'.outputs ∧ old ∉ st'.outputs ∧
      st'.isFusionOutput new = true ∧ st'.memoryGlobal new = true ∧
      st'.isFusionOutput old = false ∧ st'.memoryGlobal old = false ∧
      st'.allTvUsesValid = false ∧
      getOutputAlias st' old = none ∧
      (∀ info, getOutputAlias st old = some info →
        getOutputAlias st' new = some info)) := by
  constructor
  · intro hmem
    unfold replaceOutput
    rw [if_neg hmem]
    rfl
  · intro st' hok hne hko hkn
    unfold replaceOutput at hok
    split at hok
    case isFalse => exact absurd hok (by simp)
    case isTrue hmem =>
    injection hok with h
    subst h
    have haliaseq :
        (invalidateTvUses
          (rpoOldFlags sig (rpoNewFlags sig (rpoList st old new) new) old)).ioAlias
          = st.ioAlias := by
      simp [invalidateTvUses, rpoOldFlags_ioAlias, rpoNewFlags_ioAlias, rpoList]
    refine ⟨?_, ?_, ?_, ?_, ?_, ?_, ?_, ?_, ?_⟩
    · rw [rpoAlias_outputs]
      simp only [invalidateTvUses, rpoOldFlags_outputs, rpoNewFlags_outputs,
        rpoList]
      exact List.mem_map.mpr ⟨old, hmem, by simp⟩
    · rw [rpoAlias_outputs]
      simp only [invalidateTvUses, rpoOldFlags_outputs, rpoNewFlags_outputs,
        rpoList]
      intro hc
      obtain ⟨x, _, hfx⟩ := List.mem_map.mp hc
      by_cases hx : x = old
      · rw [if_pos hx] at hfx
        exact hne hfx.symm
      · rw [if_neg hx] at hfx
        exact hx hfx
    · rw [rpoAlias_isFusionOutput]
      simp [invalidateTvUses, rpoOldFlags, rpoNewFlags, rpoList, hko, hkn,
        setFn, hne, Ne.symm hne]
    · rw [rpoAlias_memoryGlobal]
      simp [invalidateTvUses, rpoOldFlags, rpoNewFlags, rpoList, hko, hkn,
        setFn, hne, Ne.symm hne]
    · rw [rpoAlias_isFusionOutput]
      simp [invalidateTvUses, rpoOldFlags, rpoNewFlags, rpoList, hko, hkn,
        setFn]
    · rw [rpoAlias_memoryGlobal]
      simp [invalidateTvUses, rpoOldFlags, rpoNewFlags, rpoList, hko, hkn,
        setFn]
    · rw [rpoAlias_allTvUsesValid]
      rfl
    · show (rpoAlias _ old new).ioAlias old = none
      have := rpoAlias_old_none
        (invalidateTvUses
          (rpoOldFlags sig (rpoNewFlags sig (rpoList st old new) new) old))
        old new hne
      unfold rpoAlias at this ⊢
      rw [haliaseq] at this ⊢
      exact this
    · intro info hinfo
      show (rpoAlias _ old new).ioAlias new = some info
      have := rpoAlias_migrate
        (invalidateTvUses
          (rpoOldFlags sig (rpoNewFlags sig (rpoList st old new) new) old))
        old new info (by rw [haliaseq]; exact hinfo)
      exact this

/-- Witness for C6 at a concrete container with an aliased output. -/
theorem replaceOutput_spec_witness :
    ∃ st', replaceOutput exSig exStAlias 5 7 = Except.ok st' ∧
      (7 : Nat) ∈ st'.outputs ∧ (5 : Nat) ∉ st'.outputs ∧
      st'.isFusionOutput 7 = true ∧ st'.memoryGlobal 7 = true ∧
      st'.isFusionOutput 5 = false ∧ st'.memoryGlobal 5 = false ∧
      st'.allTvUsesValid = false ∧
      getOutputAlias st' 5 = none ∧
      getOutputAlias st' 7 = some ⟨2, false⟩ := by
  obtain ⟨st', hok⟩ : ∃ st', replaceOutput exSig exStAlias 5 7 = Except.ok st' :=
    ⟨_, rfl⟩
  have h := (replaceOutput_spec exSig exStAlias 5 7).2 st' hok
    (by decide) (by rfl) (by rfl)
  exact ⟨st', hok, h.1, h.2.1, h.2.2.1, h.2.2.2.1, h.2.2.2.2.1,
    h.2.2.2.2.2.1, h.2.2.2.2.2.2.1, h.2.2.2.2.2.2.2.1,
    h.2.2.2.2.2.2.2.2 ⟨2, false⟩ (by rfl)⟩

theorem removeUse_exprs (sig : FusionSig) (st : FusionState) (v e : Nat) :
    (removeUse sig st v e).exprs = st.exprs := by
  simp only [removeUse]
  split <;> rfl

theorem foldl_clearDef_exprs (l : List Nat) (st : FusionState) :
    (l.foldl (fun s out => { s with definition := setFn s.definition out none })
      st).exprs = st.exprs := by
  induction l generalizing st with
  | nil => rfl
  | cons x l ih => simp [List.foldl_cons, ih]

theorem foldl_removeUse_exprs (sig : FusionSig) (l : List Nat)
    (st : FusionState) (e : Nat) :
    ((l.foldl (fun s inp => removeUse sig s inp e) st).exprs) = st.exprs := by
  induction l generalizing st with
  | nil => rfl
  | cons x l ih => simp [List.foldl_cons, ih, removeUse_exprs]

theorem removeExpr_ok_exprs (sig : FusionSig) {st st' : FusionState} {e : Nat}
    (h : removeExpr sig st e = Except.ok st') :
    st'.exprs = st.exprs.erase e ∧ e ∈ st.exprs := by
  unfold removeExpr at h
  split at h
  case isTrue hm =>
    injection h with h
    subst h
    refine ⟨?_, hm⟩
    show (_ : FusionState).exprs.erase e = st.exprs.erase e
    rw [foldl_removeUse_exprs, foldl_clearDef_exprs]
  case isFalse => exact absurd h (by simp)

theorem foldlM_removeExpr_ok (sig : FusionSig) :
    ∀ (l : List Nat) (st st' : FusionState), st.exprs.Nodup →
      l.foldlM (fun s e => removeExpr sig s e) st = Except.ok st' →
      st'.exprs.Nodup ∧ ∀ x, x ∈ st'.exprs → x ∈ st.exprs ∧ x ∉ l := by
  intro l
  induction l with
  | nil =>
    intro st st' hnd h
    have hs : st = st' := by simpa [List.foldlM, pure, Except.pure] using h
    subst hs
    exact ⟨hnd, fun x hx => ⟨hx, by simp⟩⟩
  | cons e l ih =>
    intro st st' hnd h
    rw [List.foldlM_cons] at h
    obtain ⟨s1, h1, h2⟩ := except_bind_ok.mp h
    obtain ⟨he, _⟩ := removeExpr_ok_exprs sig h1
    have hnd1 : s1.exprs.Nodup := by rw [he]; exact hnd.erase e
    obtain ⟨hnd', hmem⟩ := ih s1 st' hnd1 h2
    refine ⟨hnd', fun x hx => ?_⟩
    obtain ⟨hx1, hx2⟩ := hmem x hx
    rw [he] at hx1
    have hxe : x ≠ e ∧ x ∈ st.exprs := (List.Nodup.mem_erase_iff hnd).mp hx1
    refine ⟨hxe.2, ?_⟩
    simp only [List.mem_cons, not_or]
    exact ⟨hxe.1, hx2⟩

/-- C2: `removeVal(v)` fails when `v` is a declared fusion input or output;
on success (given a duplicate-free expression set whose expressions having
`v` among their outputs are exactly `v`'s definition, the single-assignment
invariant) the defining expression and every expression with `v` among its
inputs are removed, and no remaining expression references `v` as an input or
an output. -/
theorem removeVal_spec (sig : FusionSig) (st : FusionState) (v : Nat) :
    (v ∈ st.vals → st.isFusionInput v = true ∨ st.isFusionOutput v = true →
      isFailure (removeVal sig st v) = true) ∧
    (∀ st', st.exprs.Nodup →
      (∀ e, e ∈ st.exprs → v ∈ sig.exprOuts e → st.definition v = some e) →
      removeVal sig st v = Except.ok st' →
      (∀ d, st.definition v = some d → d ∉ st'.exprs) ∧
      (∀ e, v ∈ sig.exprIns e → e ∉ st'.exprs) ∧
      (∀ e, e ∈ st'.exprs →
        e ∈ st.exprs ∧ v ∉ sig.exprIns e ∧ v ∉ sig.exprOuts e)) := by
  constructor
  · intro hv hflag
    unfold removeVal
    rw [if_pos hv]
    rcases hflag with hflag | hflag
    · rw [if_pos hflag]
      rfl
    · rw [if_pos hflag]
      split <;> rfl
  · intro st' hnd hcons hok
    unfold removeVal at hok
    split at hok
    case isFalse => exact absurd hok (by simp)
    case isTrue hv =>
    split at hok
    case isTrue => exact absurd hok (by simp)
    case isFalse =>
    split at hok
    case isTrue => exact absurd hok (by simp)
    case isFalse =>
    obtain ⟨st1, hst1, hok⟩ := except_bind_ok.mp hok
    obtain ⟨st2, hst2, hok⟩ := except_bind_ok.mp hok
    injection hok with hok
    subst hok
    have hst1props : st1.exprs.Nodup ∧
        (∀ x, x ∈ st1.exprs → x ∈ st.exprs) ∧
        (∀ d, st.definition v = some d → d ∉ st1.exprs) := by
      cases hdef : st.definition v with
      | none =>
        rw [hdef] at hst1
        have : st = st1 := by simpa using hst1
        subst this
        exact ⟨hnd, fun x hx => hx, fun d hd => by simp [hdef] at hd⟩
      | some d =>
        rw [hdef] at hst1
        obtain ⟨he, _⟩ := removeExpr_ok_exprs sig hst1
        refine ⟨by rw [he]; exact hnd.erase d, ?_, ?_⟩
        · intro x hx
          rw [he] at hx
          exact List.mem_of_mem_erase hx
        · intro d' hd'
          injection hd' with hd'
          subst hd'
          rw [he]
          exact List.Nodup.not_mem_erase hnd
    obtain ⟨hnd1, hsub1, hdefgone⟩ := hst1props
    obtain ⟨hnd2, hmem2⟩ := foldlM_removeExpr_ok sig _ st1 st2 hnd1 hst2
    have hsub2 : ∀ x, x ∈ st2.exprs → x ∈ st1.exprs ∧
        x ∉ st1.exprs.filter (fun e => v ∈ sig.exprIns e) := hmem2
    have hfinal : ∀ x, x ∈ st2.exprs → v ∉ sig.exprIns x := by
      intro x hx hvx
      obtain ⟨hx1, hx2⟩ := hsub2 x hx
      exact hx2 (List.mem_filter.mpr ⟨hx1, by simpa using hvx⟩)
    refine ⟨?_, ?_, ?_⟩
    · intro d hd
      show d ∉ st2.exprs
      intro hcontra
      exact hdefgone d hd ((hsub2 d hcontra).1)
    · intro e hin
      show e ∉ st2.exprs
      intro hcontra
      exact hfinal e hcontra hin
    · intro e he
      have hest : e ∈ st.exprs := hsub1 e ((hsub2 e he).1)
      refine ⟨hest, hfinal e he, ?_⟩
      intro hout
      have hd := hcons e hest hout
      exact hdefgone e hd ((hsub2 e he).1)

/-- Signature for the C2 witness: expression `1` defines value `4`,
expression `2` consumes value `4` and defines value `6`. -/
def exSig2 : FusionSig where
  kind := fun _ => VKind.tensor
  isConst := fun _ => false
  exprIns := fun e => if e = 2 then [4] else []
  exprOuts := fun e => if e = 1 then [4] else if e = 2 then [6] else []

/-- Container for the C2 witness: values `4`, `6`, expressions `1`, `2`,
with `4` defined by expression `1`. -/
def exStRm : FusionState :=
  { exStDup with
    vals := [4, 6], inputs := [], isFusionInput := fun _ => false,
    exprs := [1, 2],
    definition := fun n =>
      if n = 4 then some 1 else if n = 6 then some 2 else none }

/-- Witness for C2: failure on a declared input, and a successful removal
eliminating the definition and the consuming expression. -/
theorem removeVal_spec_witness :
    isFailure (removeVal exSig exStDup 3) = true ∧
    ∃ st', removeVal exSig2 exStRm 4 = Except.ok st' ∧
      (1 : Nat) ∉ st'.exprs ∧ (2 : Nat) ∉ st'.exprs := by
  constructor
  · exact (removeVal_spec exSig exStDup 3).1 (by decide) (Or.inl (by rfl))
  · obtain ⟨st', hok⟩ : ∃ st', removeVal exSig2 exStRm 4 = Except.ok st' :=
      ⟨_, rfl⟩
    have h := (removeVal_spec exSig2 exStRm 4).2 st' (by decide)
      (by decide) hok
    exact ⟨st', hok, h.1 1 (by rfl), h.2.1 2 (by decide)⟩

theorem replaceOutput_ok_frame (sig : FusionSig) {st st' : FusionState}
    {old new : Nat} (hok : replaceOutput sig st old new = Except.ok st') :
    ∀ x, x ≠ old →
      (x ∈ st.outputs → x ∈ st'.outputs) ∧
      (x ≠ new →
        (x ∈ st'.outputs ↔ x ∈ st.outputs) ∧
        st'.isFusionOutput x = st.isFusionOutput x) := by
  unfold replaceOutput at hok
  split at hok
  case isFalse => exact absurd hok (by simp)
  case isTrue hmem =>
  injection hok with h
  subst h
  intro x hxo
  have houts : ∀ y : Nat, (if y = old then new else y) = y ∨
      (if y = old then new else y) = new := by
    intro y
    by_cases hy : y = old
    · exact Or.inr (if_pos hy)
    · exact Or.inl (if_neg hy)
  constructor
  · intro hx
    rw [rpoAlias_outputs]
    simp only [invalidateTvUses, rpoOldFlags_outputs, rpoNewFlags_outputs,
      rpoList]
    exact List.mem_map.mpr ⟨x, hx, if_neg hxo⟩
  · intro hxn
    constructor
    · rw [rpoAlias_outputs]
      simp only [invalidateTvUses, rpoOldFlags_outputs, rpoNewFlags_outputs,
        rpoList]
      constructor
      · intro hx
        obtain ⟨y, hy, hfy⟩ := List.mem_map.mp hx
        rcases houts y with hcase | hcase
        · rw [hcase] at hfy
          exact hfy ▸ hy
        · rw [hcase] at hfy
          exact absurd hfy.symm hxn
      · intro hx
        exact List.mem_map.mpr ⟨x, hx, if_neg hxo⟩
    · rw [rpoAlias_isFusionOutput]
      unfold invalidateTvUses rpoOldFlags rpoNewFlags rpoList
      split <;> split <;>
        simp [setFn, hxo, hxn]

theorem replaceOutput_ok_sync (sig : FusionSig) {st st' : FusionState}
    {old new : Nat} (hok : replaceOutput sig st old new = Except.ok st')
    (hne : old ≠ new) (hko : sig.kind old = VKind.tensor)
    (hkn : sig.kind new = VKind.tensor)
    (hsync : ∀ n, st.isFusionOutput n = true ↔ n ∈ st.outputs) :
    ∀ n, st'.isFusionOutput n = true ↔ n ∈ st'.outputs := by
  have hs := (replaceOutput_spec sig st old new).2 st' hok hne hko hkn
  intro n
  by_cases hn : n = new
  · subst hn
    simp [hs.1, hs.2.2.1]
  · by_cases ho : n = old
    · subst ho
      simp [hs.2.1, hs.2.2.2.2.1]
    · have hf := (replaceOutput_ok_frame sig hok n ho).2 hn
      rw [hf.1, hf.2]
      exact hsync n

theorem rofm_frame (sig : FusionSig) :
    ∀ (m : List (Nat × Nat)) (st st' : FusionState),
      replaceOutputsFromMap sig st m = Except.ok st' →
      ∀ x, (∀ q ∈ m, x ≠ q.1) →
        ((∀ q ∈ m, x ≠ q.2) →
          st'.isFusionOutput x = st.isFusionOutput x ∧
          (x ∈ st'.outputs ↔ x ∈ st.outputs)) ∧
        (x ∈ st.outputs → x ∈ st'.outputs) := by
  intro m
  induction m with
  | nil =>
    intro st st' hok x _
    have : st = st' := by
      simpa [replaceOutputsFromMap, List.foldlM, pure, Except.pure] using hok
    subst this
    exact ⟨fun _ => ⟨rfl, Iff.rfl⟩, fun h => h⟩
  | cons a rest ih =>
    intro st st' hok x hx1
    unfold replaceOutputsFromMap at hok
    rw [List.foldlM_cons] at hok
    have hxa1 : x ≠ a.1 := hx1 a (by simp)
    have hrest1 : ∀ q ∈ rest, x ≠ q.1 := fun q hq => hx1 q (by simp [hq])
    split at hok
    · obtain ⟨s1, h1, h2⟩ := except_bind_ok.mp hok
      have hstep := replaceOutput_ok_frame sig h1 x hxa1
      have ihr := ih s1 st' h2 x hrest1
      constructor
      · intro hx2
        have hxa2 : x ≠ a.2 := hx2 a (by simp)
        have hrest2 : ∀ q ∈ rest, x ≠ q.2 := fun q hq => hx2 q (by simp [hq])
        have hs := (hstep.2 hxa2)
        have hr := ihr.1 hrest2
        exact ⟨hr.1.trans hs.2, hr.2.trans hs.1⟩
      · intro hmem
        exact ihr.2 (hstep.1 hmem)
    · have hok' : replaceOutputsFromMap sig st rest = Except.ok st' := hok
      have ihr := ih st st' hok' x hrest1
      exact ⟨fun hx2 => ihr.1 (fun q hq => hx2 q (by simp [hq])), ihr.2⟩

/-- Container for the C7 counterexample: tensors `10` and `11` are both
declared outputs. -/
def exStChain : FusionState :=
  { exStDup with
    vals := [10, 11, 12], inputs := [], isFusionInput := fun _ => false,
    outputs := [10, 11],
    isFusionOutput := fun n => decide (n = 10 ∨ n = 11) }

/-- C7 counterexample: with the chained replacement map
`{10 ↦ 11, 11 ↦ 12}` applied in that order, the declared output `10` is first
replaced by `11`, but the second entry then rewrites `11` to `12`, so the
final output list does not contain `11` — the mapped value of `10` — even
though `10` was a declared output, refuting the claim for this mapping. -/
theorem replaceOutputsFromMap_chain_counterexample :
    ∃ st', replaceOutputsFromMap exSig exStChain [(10, 11), (11, 12)] =
        Except.ok st' ∧
      (10 : Nat) ∈ exStChain.outputs ∧
      exStChain.isFusionOutput 10 = true ∧
      (11 : Nat) ∉ st'.outputs := by
  refine ⟨_, rfl, ?_, ?_, ?_⟩ <;> decide

/-- C7 (amended): for a whole-graph replacement whose mapping has pairwise
distinct keys, replacement values disjoint from the keys, tensor-shaped
entries, and output flags in sync with the output list, every mapped old
value that was a declared fusion output is replaced by its mapped value in
the output list and its is-fusion-output flag is cleared. -/
theorem replaceValueOutputs_spec (sig : FusionSig) :
    ∀ (m : List (Nat × Nat)) (st st' : FusionState),
      (∀ n, st.isFusionOutput n = true ↔ n ∈ st.outputs) →
      (∀ p ∈ m, sig.kind p.1 = VKind.tensor ∧ sig.kind p.2 = VKind.tensor) →
      (∀ p ∈ m, ∀ q ∈ m, p.2 ≠ q.1) →
      (m.map Prod.fst).Nodup →
      replaceOutputsFromMap sig st m = Except.ok st' →
      ∀ p ∈ m, p.1 ∈ st.outputs →
        p.2 ∈ st'.outputs ∧ p.1 ∉ st'.outputs ∧
        st'.isFusionOutput p.1 = false := by
  intro m
  induction m with
  | nil =>
    intro st st' _ _ _ _ _ p hp
    exact absurd hp (by simp)
  | cons a rest ih =>
    intro st st' hsync htens hdisj hnd hok p hp hpout
    unfold replaceOutputsFromMap at hok
    rw [List.foldlM_cons] at hok
    have hne : a.1 ≠ a.2 := fun h => hdisj a (by simp) a (by simp) h.symm
    rcases List.mem_cons.mp hp with hpa | hpr
    · subst hpa
      have hflag : st.isFusionOutput p.1 = true := (hsync p.1).mpr hpout
      rw [if_pos hflag] at hok
      obtain ⟨s1, h1, h2⟩ := except_bind_ok.mp hok
      have hts := htens p (by simp)
      have hs := (replaceOutput_spec sig st p.1 p.2).2 s1 h1
        (fun h => hne h) hts.1 hts.2
      have hfr := rofm_frame sig rest s1 st' h2
      refine ⟨?_, ?_, ?_⟩
      · exact (hfr p.2 (fun q hq => hdisj p (by simp) q (by simp [hq]))).2 hs.1
      · have h1nd : ∀ q ∈ rest, p.1 ≠ q.1 := by
          intro q hq hcontra
          have hnd2 := hnd
          rw [List.map_cons, List.nodup_cons] at hnd2
          have := hnd2.1
          exact this (hcontra ▸ List.mem_map.mpr ⟨q, hq, rfl⟩)
        have h1n2 : ∀ q ∈ rest, p.1 ≠ q.2 := by
          intro q hq hcontra
          exact hdisj q (by simp [hq]) p (by simp) hcontra.symm
        have := (hfr p.1 h1nd).1 h1n2
        rw [this.2]
        exact hs.2.1
      · have h1nd : ∀ q ∈ rest, p.1 ≠ q.1 := by
          intro q hq hcontra
          have hnd2 := hnd
          rw [List.map_cons, List.nodup_cons] at hnd2
          have := hnd2.1
          exact this (hcontra ▸ List.mem_map.mpr ⟨q, hq, rfl⟩)
        have h1n2 : ∀ q ∈ rest, p.1 ≠ q.2 := by
          intro q hq hcontra
          exact hdisj q (by simp [hq]) p (by simp) hcontra.symm
        have := (hfr p.1 h1nd).1 h1n2
        rw [this.1]
        exact hs.2.2.2.2.1
    · have hrtens : ∀ q ∈ rest, sig.kind q.1 = VKind.tensor ∧
          sig.kind q.2 = VKind.tensor := fun q hq => htens q (by simp [hq])
      have hrdisj : ∀ q ∈ rest, ∀ r ∈ rest, q.2 ≠ r.1 :=
        fun q hq r hr => hdisj q (by simp [hq]) r (by simp [hr])
      have hrnd : (rest.map Prod.fst).Nodup := by
        have hnd2 := hnd
        rw [List.map_cons, List.nodup_cons] at hnd2
        exact hnd2.2
      split at hok
      case isTrue hflag =>
        obtain ⟨s1, h1, h2⟩ := except_bind_ok.mp hok
        have hts := htens a (by simp)
        have hne' : a.1 ≠ a.2 := hne
        have hsync1 := replaceOutput_ok_sync sig h1 hne' hts.1 hts.2 hsync
        have hp1 : p.1 ∈ s1.outputs := by
          have hpa1 : p.1 ≠ a.1 := by
            intro hcontra
            have hnd2 := hnd
            rw [List.map_cons, List.nodup_cons] at hnd2
            have := hnd2.1
            exact this (hcontra ▸ List.mem_map.mpr ⟨p, hpr, rfl⟩)
          exact (replaceOutput_ok_frame sig h1 p.1 hpa1).1 hpout
        exact ih s1 st' hsync1 hrtens hrdisj hrnd h2 p hpr hp1
      case isFalse =>
        exact ih st st' hsync hrtens hrdisj hrnd hok p hpr hpout

/-- Witness for C7 (amended) on a disjoint two-entry mapping. -/
theorem replaceValueOutputs_spec_witness :
    ∃ st', replaceOutputsFromMap exSig exStChain [(10, 20), (11, 21)] =
        Except.ok st' ∧
      (20 : Nat) ∈ st'.outputs ∧ (10 : Nat) ∉ st'.outputs ∧
      st'.isFusionOutput 10 = false ∧
      (21 : Nat) ∈ st'.outputs ∧ (11 : Nat) ∉ st'.outputs ∧
      st'.isFusionOutput 11 = false := by
  obtain ⟨st', hok⟩ :
      ∃ st', replaceOutputsFromMap exSig exStChain [(10, 20), (11, 21)] =
        Except.ok st' := ⟨_, rfl⟩
  have h := replaceValueOutputs_spec exSig [(10, 20), (11, 21)] exStChain st'
    (by intro n; simp [exStChain, exStDup]) (by decide) (by decide) (by decide)
    hok
  have h10 := h (10, 20) (by simp) (by decide)
  have h11 := h (11, 21) (by simp) (by decide)
  exact ⟨st', hok, h10.1, h10.2.1, h10.2.2, h11.1, h11.2.1, h11.2.2⟩

theorem erase_shape {d e : Nat} (hne : e ≠ d) :
    ∀ l : List Nat, (∃ lp, l = lp ++ [e]) → ∃ lp, l.erase d = lp ++ [e] := by
  rintro l ⟨lp, rfl⟩
  by_cases hd : d ∈ lp
  · exact ⟨lp.erase d, by rw [List.erase_append_left _ hd]⟩
  · refine ⟨lp, ?_⟩
    rw [List.erase_append_right _ hd]
    simp [List.erase_cons, hne]

theorem foldl_clearDef_def (l : List Nat) (st : FusionState) (v : Nat) :
    ((l.foldl (fun s out => { s with definition := setFn s.definition out none })
      st).definition v) = if v ∈ l then none else st.definition v := by
  induction l generalizing st with
  | nil => simp
  | cons x l ih =>
    rw [List.foldl_cons, ih]
    by_cases hv : v ∈ l
    · simp [hv]
    · by_cases hx : v = x <;> simp [hv, hx, setFn]

theorem foldl_clearDef_uses (l : List Nat) (st : FusionState) :
    ((l.foldl (fun s out => { s with definition := setFn s.definition out none })
      st).uses) = st.uses := by
  induction l generalizing st with
  | nil => rfl
  | cons x l ih => simp [List.foldl_cons, ih]

theorem foldl_clearDef_isKernel (l : List Nat) (st : FusionState) :
    ((l.foldl (fun s out => { s with definition := setFn s.definition out none })
      st).isKernel) = st.isKernel := by
  induction l generalizing st with
  | nil => rfl
  | cons x l ih => simp [List.foldl_cons, ih]

theorem foldl_clearDef_valid (l : List Nat) (st : FusionState) :
    ((l.foldl (fun s out => { s with definition := setFn s.definition out none })
      st).allTvUsesValid) = st.allTvUsesValid := by
  induction l generalizing st with
  | nil => rfl
  | cons x l ih => simp [List.foldl_cons, ih]

theorem removeUse_definition (sig : FusionSig) (st : FusionState) (v e : Nat) :
    (removeUse sig st v e).definition = st.definition := by
  simp only [removeUse]
  split <;> rfl

theorem removeUse_isKernel (sig : FusionSig) (st : FusionState) (v e : Nat) :
    (removeUse sig st v e).isKernel = st.isKernel := by
  simp only [removeUse]
  split <;> rfl

theorem removeUse_valid_mono (sig : FusionSig) (st : FusionState) (v e : Nat)
    (h : st.allTvUsesValid = false) :
    (removeUse sig st v e).allTvUsesValid = false := by
  simp only [removeUse]
  split <;> simp [invalidateTvUses, h]

theorem removeUse_shape (sig : FusionSig) (st : FusionState) (v' e' e v : Nat)
    (hne : e ≠ e') (h : ∃ lp, st.uses v = lp ++ [e]) :
    ∃ lp, (removeUse sig st v' e').uses v = lp ++ [e] := by
  have huse : (removeUse sig st v' e').uses v =
      setFn st.uses v' ((st.uses v').erase e') v := by
    simp only [removeUse]
    split <;> rfl
  rw [huse]
  by_cases hv : v = v'
  · subst hv
    rw [setFn_same]
    exact erase_shape hne _ h
  · rw [setFn_other _ _ _ _ hv]
    exact h

theorem foldl_removeUse_definition (sig : FusionSig) (l : List Nat)
    (st : FusionState) (e : Nat) :
    ((l.foldl (fun s inp => removeUse sig s inp e) st).definition) =
      st.definition := by
  induction l generalizing st with
  | nil => rfl
  | cons x l ih => simp [List.foldl_cons, ih, removeUse_definition]

theorem foldl_removeUse_isKernel (sig : FusionSig) (l : List Nat)
    (st : FusionState) (e : Nat) :
    ((l.foldl (fun s inp => removeUse sig s inp e) st).isKernel) =
      st.isKernel := by
  induction l generalizing st with
  | nil => rfl
  | cons x l ih => simp [List.foldl_cons, ih, removeUse_isKernel]

theorem foldl_removeUse_valid_mono (sig : FusionSig) (l : List Nat)
    (st : FusionState) (e : Nat) (h : st.allTvUsesValid = false) :
    ((l.foldl (fun s inp => removeUse sig s inp e) st).allTvUsesValid) =
      false := by
  induction l generalizing st with
  | nil => exact h
  | cons x l ih =>
    rw [List.foldl_cons]
    exact ih _ (removeUse_valid_mono sig st x e h)

theorem foldl_removeUse_shape (sig : FusionSig) (l : List Nat)
    (st : FusionState) (e' e v : Nat) (hne : e ≠ e')
    (h : ∃ lp, st.uses v = lp ++ [e]) :
    ∃ lp, ((l.foldl (fun s inp => removeUse sig s inp e') st).uses v) =
      lp ++ [e] := by
  induction l generalizing st with
  | nil => exact h
  | cons x l ih =>
    rw [List.foldl_cons]
    exact ih _ (removeUse_shape sig st x e' e v hne h)

/-- Full characterisation of a successful `Fusion::removeExpr`. -/
theorem removeExpr_ok_char (sig : FusionSig) {s s' : FusionState} {d : Nat}
    (hok : removeExpr sig s d = Except.ok s') :
    s'.exprs = s.exprs.erase d ∧
    (∀ v, s'.definition v =
      if v ∈ sig.exprOuts d then none else s.definition v) ∧
    s'.isKernel = s.isKernel ∧
    (s.allTvUsesValid = false → s'.allTvUsesValid = false) ∧
    (∀ e, e ≠ d → ∀ v, (∃ lp, s.uses v = lp ++ [e]) →
      ∃ lp, s'.uses v = lp ++ [e]) := by
  unfold removeExpr at hok
  split at hok
  case isFalse => exact absurd hok (by simp)
  case isTrue hmem =>
  injection hok with h
  subst h
  refine ⟨?_, ?_, ?_, ?_, ?_⟩
  · show (_ : FusionState).exprs.erase d = s.exprs.erase d
    rw [foldl_removeUse_exprs, foldl_clearDef_exprs]
  · intro v
    show (_ : FusionState).definition v = _
    rw [foldl_removeUse_definition, foldl_clearDef_def]
  · show (_ : FusionState).isKernel = _
    rw [foldl_removeUse_isKernel, foldl_clearDef_isKernel]
  · intro h
    show (_ : FusionState).allTvUsesValid = false
    rw [foldl_removeUse_valid_mono]
    rw [foldl_clearDef_valid]
    exact h
  · intro e hne v hv
    refine foldl_removeUse_shape sig _ _ d e v hne ?_
    rw [foldl_clearDef_uses]
    exact hv

theorem invOrId_exprs (c : Prop) [Decidable c] (D : FusionState) :
    (if c then invalidateTvUses D else D).exprs = D.exprs := by
  split <;> rfl

theorem invOrId_isKernel (c : Prop) [Decidable c] (D : FusionState) :
    (if c then invalidateTvUses D else D).isKernel = D.isKernel := by
  split <;> rfl

theorem invOrId_definition (c : Prop) [Decidable c] (D : FusionState) :
    (if c then invalidateTvUses D else D).definition = D.definition := by
  split <;> rfl

theorem invOrId_uses (c : Prop) [Decidable c] (D : FusionState) :
    (if c then invalidateTvUses D else D).uses = D.uses := by
  split <;> rfl

theorem invOrId_valid_mono (c : Prop) [Decidable c] (D : FusionState)
    (h : D.allTvUsesValid = false) :
    (if c then invalidateTvUses D else D).allTvUsesValid = false := by
  split <;> simp [invalidateTvUses, h]

/-- Characterisation of one output step of `registerExpr` in single-assignment
mode: the definition is installed on the output, a pre-existing definition is
removed (clearing the definitions of its other outputs). -/
theorem regOut_ssa_step (sig : FusionSig) (e out : Nat) {s s' : FusionState}
    (hssa : s.isKernel = false) (hnd : s.exprs.Nodup)
    (hdne : s.definition out ≠ some e)
    (hok : registerExprOut sig e s out = Except.ok s') :
    s'.isKernel = false ∧ s'.exprs.Nodup ∧
    (∀ x, x ∈ s'.exprs → x ∈ s.exprs) ∧
    s'.definition out = some e ∧
    (∀ d, s.definition out = some d → d ∉ s'.exprs) ∧
    (∀ v, v ≠ out → s'.definition v = s.definition v ∨
      (s'.definition v = none ∧
        ∃ d, s.definition out = some d ∧ d ∈ s.exprs ∧ v ∈ sig.exprOuts d ∧
          d ∉ s'.exprs)) ∧
    (∀ v, (∃ lp, s.uses v = lp ++ [e]) → ∃ lp, s'.uses v = lp ++ [e]) ∧
    (s.allTvUsesValid = false → s'.allTvUsesValid = false) := by
  unfold registerExprOut at hok
  split at hok
  case isFalse => exact absurd hok (by simp)
  case isTrue hvals =>
  obtain ⟨s1, h1, hok2⟩ := except_bind_ok.mp hok
  cases hdef : s.definition out with
  | none =>
    rw [hdef] at h1
    have h1s : Except.ok s = Except.ok s1 := h1
    injection h1s with h1s
    subst h1s
    rw [if_pos (Or.inr hdef)] at hok2
    injection hok2 with h2
    subst h2
    refine ⟨?_, ?_, ?_, ?_, ?_, ?_, ?_, ?_⟩
    · rw [invOrId_isKernel]
      exact hssa
    · rw [invOrId_exprs]
      exact hnd
    · intro x hx
      rw [invOrId_exprs] at hx
      exact hx
    · rw [invOrId_definition]
      exact setFn_same _ _ _
    · intro d hd
      exact absurd hd (by simp)
    · intro v hv
      left
      rw [invOrId_definition]
      exact setFn_other _ _ _ _ hv
    · intro v hvshape
      rw [invOrId_uses]
      exact hvshape
    · intro h
      exact invOrId_valid_mono _ _ h
  | some d =>
    rw [hdef] at h1
    have h1s : (if (! s.isKernel : Bool) = true then removeExpr sig s d
        else Except.ok s) = Except.ok s1 := h1
    rw [hssa] at h1s
    rw [if_pos (by rfl)] at h1s
    obtain ⟨hexprs1, hdef1, hker1, hvalid1, hshape1⟩ := removeExpr_ok_char sig h1s
    have hker1s : s1.isKernel = false := hker1.trans hssa
    rw [if_pos (Or.inl (by rw [hker1s]; rfl))] at hok2
    injection hok2 with h2
    subst h2
    have hnd1 : s1.exprs.Nodup := by rw [hexprs1]; exact hnd.erase d
    have hdne' : e ≠ d := fun h => hdne (h ▸ hdef)
    have hdgone : d ∉ s1.exprs := by
      rw [hexprs1]
      exact List.Nodup.not_mem_erase hnd
    have hdmem : d ∈ s.exprs := by
      unfold removeExpr at h1s
      split at h1s
      case isTrue h => exact h
      case isFalse => exact absurd h1s (by simp)
    refine ⟨?_, ?_, ?_, ?_, ?_, ?_, ?_, ?_⟩
    · rw [invOrId_isKernel]
      exact hker1s
    · rw [invOrId_exprs]
      exact hnd1
    · intro x hx
      rw [invOrId_exprs] at hx
      rw [hexprs1] at hx
      exact List.mem_of_mem_erase hx
    · rw [invOrId_definition]
      exact setFn_same _ _ _
    · intro d0 hd0
      injection hd0 with hd0
      subst hd0
      rw [invOrId_exprs]
      exact hdgone
    · intro v hv
      by_cases hvout : v ∈ sig.exprOuts d
      · right
        refine ⟨?_, d, rfl, hdmem, hvout, ?_⟩
        · rw [invOrId_definition]
          show setFn s1.definition out (some e) v = none
          rw [setFn_other _ _ _ _ hv, hdef1 v, if_pos hvout]
        · rw [invOrId_exprs]
          exact hdgone
      · left
        rw [invOrId_definition]
        show setFn s1.definition out (some e) v = _
        rw [setFn_other _ _ _ _ hv, hdef1 v, if_neg hvout]
    · intro v hvshape
      rw [invOrId_uses]
      exact hshape1 e hdne' v hvshape
    · intro h
      exact invOrId_valid_mono _ _ (hvalid1 h)

/-- Characterisation of one output step of `registerExpr` in the kernel
(non-SSA) flavour: an existing definition is left untouched, only undefined
outputs receive the new definition. -/
theorem regOut_kernel_step (sig : FusionSig) (e out : Nat) {s s' : FusionState}
    (hker : s.isKernel = true)
    (hok : registerExprOut sig e s out = Except.ok s') :
    s'.isKernel = true ∧ s'.exprs = s.exprs ∧ s'.uses = s.uses ∧
    (s.allTvUsesValid = false → s'.allTvUsesValid = false) ∧
    (∀ v, v ≠ out → s'.definition v = s.definition v) ∧
    (s.definition out = none → s'.definition out = some e) ∧
    (∀ d, s.definition out = some d → s' = s) := by
  unfold registerExprOut at hok
  split at hok
  case isFalse => exact absurd hok (by simp)
  case isTrue hvals =>
  obtain ⟨s1, h1, hok2⟩ := except_bind_ok.mp hok
  cases hdef : s.definition out with
  | none =>
    rw [hdef] at h1
    have h1s : Except.ok s = Except.ok s1 := h1
    injection h1s with h1s
    subst h1s
    rw [if_pos (Or.inr hdef)] at hok2
    injection hok2 with h2
    subst h2
    refine ⟨?_, ?_, ?_, ?_, ?_, ?_, ?_⟩
    · rw [invOrId_isKernel]
      exact hker
    · rw [invOrId_exprs]
    · rw [invOrId_uses]
    · intro h
      exact invOrId_valid_mono _ _ h
    · intro v hv
      rw [invOrId_definition]
      exact setFn_other _ _ _ _ hv
    · intro _
      rw [invOrId_definition]
      exact setFn_same _ _ _
    · intro d hd
      exact absurd hd (by simp)
  | some d =>
    rw [hdef] at h1
    have h1s : (if (! s.isKernel : Bool) = true then removeExpr sig s d
        else Except.ok s) = Except.ok s1 := h1
    rw [hker] at h1s
    rw [if_neg (by simp)] at h1s
    injection h1s with h1s
    subst h1s
    rw [if_neg (by simp [hker, hdef])] at hok2
    injection hok2 with h2
    subst h2
    exact ⟨hker, rfl, rfl, fun h => h, fun v _ => rfl,
      fun h => absurd h (by simp [hdef]), fun d0 _ => rfl⟩

/-- Characterisation of one input step of `registerExpr`. -/
theorem regIn_step (sig : FusionSig) (e input : Nat) {s s' : FusionState}
    (hok : registerExprIn sig e s input = Except.ok s') :
    s'.exprs = s.exprs ∧ s'.definition = s.definition ∧
    s'.isKernel = s.isKernel ∧
    (sig.kind input = VKind.tensor →
      s'.allTvUsesValid = false ∧ s'.uses = s.uses) ∧
    (sig.kind input ≠ VKind.tensor →
      s'.allTvUsesValid = s.allTvUsesValid ∧
      (∀ v, v ≠ input → s'.uses v = s.uses v) ∧
      (e ∉ s.uses input → s'.uses input = s.uses input ++ [e]) ∧
      (e ∈ s.uses input → s'.uses input = s.uses input)) := by
  unfold registerExprIn at hok
  split at hok
  case isFalse => exact absurd hok (by simp)
  case isTrue hvals =>
  split at hok
  case isTrue hk =>
    injection hok with h
    subst h
    exact ⟨rfl, rfl, rfl, fun _ => ⟨rfl, rfl⟩, fun hnk => absurd hk hnk⟩
  case isFalse hk =>
    injection hok with h
    subst h
    refine ⟨?_, ?_, ?_, fun hkt => absurd hkt hk, fun _ => ?_⟩
    · unfold addUse
      split <;> rfl
    · unfold addUse
      split <;> rfl
    · unfold addUse
      split <;> rfl
    · unfold addUse
      refine ⟨?_, ?_, ?_, ?_⟩
      · split <;> rfl
      · intro v hv
        split
        · rfl
        · exact setFn_other _ _ _ _ hv
      · intro hmem
        split
        case isTrue h => exact absurd h hmem
        case isFalse => exact setFn_same _ _ _
      · intro hmem
        split
        case isTrue => rfl
        case isFalse h => exact absurd hmem h

/-- Input-phase fold of `registerExpr`: non-tensor inputs get the expression
appended to their use list, a tensor input invalidates the use-list cache. -/
theorem regIns_ok (sig : FusionSig) (e : Nat) :
    ∀ (l : List Nat) (s s' : FusionState),
      (∀ v, e ∉ s.uses v ∨ ∃ lp, s.uses v = lp ++ [e]) →
      l.foldlM (registerExprIn sig e) s = Except.ok s' →
      s'.exprs = s.exprs ∧ s'.definition = s.definition ∧
      s'.isKernel = s.isKernel ∧
      (∀ v, (∃ lp, s.uses v = lp ++ [e]) → ∃ lp, s'.uses v = lp ++ [e]) ∧
      (∀ v, v ∈ l → sig.kind v ≠ VKind.tensor →
        ∃ lp, s'.uses v = lp ++ [e]) ∧
      ((∃ v, v ∈ l ∧ sig.kind v = VKind.tensor) →
        s'.allTvUsesValid = false) ∧
      (s.allTvUsesValid = false → s'.allTvUsesValid = false) := by
  intro l
  induction l with
  | nil =>
    intro s s' hInv hok
    have : s = s' := by simpa [List.foldlM, pure, Except.pure] using hok
    subst this
    exact ⟨rfl, rfl, rfl, fun v hv => hv, fun v hv => absurd hv (by simp),
      fun ⟨v, hv, _⟩ => absurd hv (by simp), fun h => h⟩
  | cons input rest ih =>
    intro s s' hInv hok
    rw [List.foldlM_cons] at hok
    obtain ⟨s1, h1, h2⟩ := except_bind_ok.mp hok
    obtain ⟨sEx, sDef, sKer, sTens, sNt⟩ := regIn_step sig e input h1
    have hInv1 : ∀ v, e ∉ s1.uses v ∨ ∃ lp, s1.uses v = lp ++ [e] := by
      intro v
      by_cases hkind : sig.kind input = VKind.tensor
      · rw [(sTens hkind).2]
        exact hInv v
      · obtain ⟨_, hother, happ, hkeep⟩ := sNt hkind
        by_cases hv : v = input
        · subst hv
          rcases hInv v with hmem | hshape
          · right
            exact ⟨s.uses v, happ hmem⟩
          · right
            have hmem : e ∈ s.uses v := by
              obtain ⟨lp, hlp⟩ := hshape
              rw [hlp]
              simp
            rw [hkeep hmem]
            exact hshape
        · rw [hother v hv]
          exact hInv v
    have hshape1 : ∀ v, (∃ lp, s.uses v = lp ++ [e]) →
        ∃ lp, s1.uses v = lp ++ [e] := by
      intro v hshape
      by_cases hkind : sig.kind input = VKind.tensor
      · rw [(sTens hkind).2]
        exact hshape
      · obtain ⟨_, hother, _, hkeep⟩ := sNt hkind
        by_cases hv : v = input
        · subst hv
          have hmem : e ∈ s.uses v := by
            obtain ⟨lp, hlp⟩ := hshape
            rw [hlp]
            simp
          rw [hkeep hmem]
          exact hshape
        · rw [hother v hv]
          exact hshape
    obtain ⟨iEx, iDef, iKer, iShp, iPer, iTens, iVal⟩ := ih s1 s' hInv1 h2
    refine ⟨iEx.trans sEx, iDef.trans sDef, iKer.trans sKer, ?_, ?_, ?_, ?_⟩
    · exact fun v hv => iShp v (hshape1 v hv)
    · intro v hv hnt
      rcases List.mem_cons.mp hv with hvh | hvr
      · subst hvh
        refine iShp v ?_
        obtain ⟨_, _, happ, hkeep⟩ := sNt hnt
        rcases hInv v with hmem | hshape
        · exact ⟨s.uses v, happ hmem⟩
        · have hmem : e ∈ s.uses v := by
            obtain ⟨lp, hlp⟩ := hshape
            rw [hlp]
            simp
          rw [hkeep hmem]
          exact hshape
      · exact iPer v hvr hnt
    · intro ⟨v, hv, hkind⟩
      rcases List.mem_cons.mp hv with hvh | hvr
      · subst hvh
        exact iVal (sTens hkind).1
      · exact iTens ⟨v, hvr, hkind⟩
    · intro h
      refine iVal ?_
      by_cases hkind : sig.kind input = VKind.tensor
      · exact (sTens hkind).1
      · rw [(sNt hkind).1]
        exact h

/-- Output-phase fold of `registerExpr` in single-assignment mode. -/
theorem regOuts_ssa (sig : FusionSig) (e : Nat) :
    ∀ (todo : List Nat) (s s' : FusionState),
      s.isKernel = false →
      s.exprs.Nodup →
      todo.Nodup →
      (∀ out ∈ todo, s.definition out ≠ some e) →
      (∀ d, d ∈ s.exprs → d ≠ e → ∀ v, v ∈ sig.exprOuts d →
        s.definition v = some d) →
      todo.foldlM (registerExprOut sig e) s = Except.ok s' →
      (∀ v, s.definition v = some e → s'.definition v = some e) ∧
      (∀ x, x ∈ s'.exprs → x ∈ s.exprs) ∧
      (∀ out ∈ todo, s'.definition out = some e ∧
        (∀ d, s.definition out = some d → d ∉ s'.exprs)) ∧
      (∀ v, (∃ lp, s.uses v = lp ++ [e]) → ∃ lp, s'.uses v = lp ++ [e]) ∧
      (s.allTvUsesValid = false → s'.allTvUsesValid = false) := by
  intro todo
  induction todo with
  | nil =>
    intro s s' hssa hnd hndt hfr hci hok
    have : s = s' := by simpa [List.foldlM, pure, Except.pure] using hok
    subst this
    exact ⟨fun v hv => hv, fun x hx => hx, fun out h => absurd h (by simp),
      fun v hv => hv, fun h => h⟩
  | cons out rest ih =>
    intro s s' hssa hnd hndt hfr hci hok
    rw [List.foldlM_cons] at hok
    obtain ⟨s1, h1, h2⟩ := except_bind_ok.mp hok
    have hdneo : s.definition out ≠ some e := hfr out (by simp)
    obtain ⟨hk1, hnd1, hsub1, hdefo1, hremov1, hframe1, hshape1, hvalid1⟩ :=
      regOut_ssa_step sig e out hssa hnd hdneo h1
    have hndt1 : rest.Nodup := (List.nodup_cons.mp hndt).2
    have houtnr : out ∉ rest := (List.nodup_cons.mp hndt).1
    have hfr1 : ∀ o ∈ rest, s1.definition o ≠ some e := by
      intro o ho
      have hone : o ≠ out := fun h => houtnr (h ▸ ho)
      rcases hframe1 o hone with hcase | hcase
      · rw [hcase]
        exact hfr o (by simp [ho])
      · rw [hcase.1]
        simp
    have hci1 : ∀ d, d ∈ s1.exprs → d ≠ e → ∀ v, v ∈ sig.exprOuts d →
        s1.definition v = some d := by
      intro d hd hde v hv
      have hds : d ∈ s.exprs := hsub1 d hd
      have hvd : s.definition v = some d := hci d hds hde v hv
      by_cases hvo : v = out
      · subst hvo
        exact absurd hd (hremov1 d hvd)
      · rcases hframe1 v hvo with hcase | hcase
        · rw [hcase]
          exact hvd
        · obtain ⟨_, d1, hd1, hd1mem, hvoutd1, hd1gone⟩ := hcase
          have hd1ne : d1 ≠ e := fun h => hdneo (h ▸ hd1)
          have hvd1 := hci d1 hd1mem hd1ne v hvoutd1
          rw [hvd] at hvd1
          injection hvd1 with hvd1
          subst hvd1
          exact absurd hd hd1gone
    obtain ⟨ihA, ihB, ihC, ihD, ihE⟩ := ih s1 s' hk1 hnd1 hndt1 hfr1 hci1 h2
    refine ⟨?_, ?_, ?_, ?_, ?_⟩
    · intro v hv
      have hvo : v ≠ out := fun h => hdneo (h ▸ hv)
      refine ihA v ?_
      rcases hframe1 v hvo with hcase | hcase
      · rw [hcase]
        exact hv
      · obtain ⟨hnone, d1, hd1, hd1mem, hvoutd1, _⟩ := hcase
        have hd1ne : d1 ≠ e := fun h => hdneo (h ▸ hd1)
        have hvd1 := hci d1 hd1mem hd1ne v hvoutd1
        rw [hv] at hvd1
        injection hvd1 with hvd1
        exact absurd hvd1.symm hd1ne
    · exact fun x hx => hsub1 x (ihB x hx)
    · intro o ho
      rcases List.mem_cons.mp ho with hoh | hor
      · subst hoh
        refine ⟨ihA o hdefo1, ?_⟩
        intro d hd hcontra
        exact hremov1 d hd (ihB d hcontra)
      · refine ⟨(ihC o hor).1, ?_⟩
        intro d hd
        have hone : o ≠ out := fun h => houtnr (h ▸ hor)
        rcases hframe1 o hone with hcase | hcase
        · exact (ihC o hor).2 d (by rw [hcase]; exact hd)
        · obtain ⟨hnone, d1, hd1, hd1mem, houtd1, hd1gone⟩ := hcase
          have hd1ne : d1 ≠ e := fun h => hdneo (h ▸ hd1)
          have hod1 := hci d1 hd1mem hd1ne o houtd1
          rw [hd] at hod1
          injection hod1 with hod1
          subst hod1
          intro hcontra
          exact hd1gone (ihB d hcontra)
    · exact fun v hv => ihD v (hshape1 v hv)
    · exact fun h => ihE (hvalid1 h)

/-- Output-phase fold of `registerExpr` in the kernel flavour. -/
theorem regOuts_kernel (sig : FusionSig) (e : Nat) :
    ∀ (todo : List Nat) (s s' : FusionState),
      s.isKernel = true →
      todo.Nodup →
      todo.foldlM (registerExprOut sig e) s = Except.ok s' →
      s'.exprs = s.exprs ∧ s'.uses = s.uses ∧
      (s.allTvUsesValid = false → s'.allTvUsesValid = false) ∧
      (∀ v, v ∉ todo → s'.definition v = s.definition v) ∧
      (∀ out ∈ todo, (s.definition out = none → s'.definition out = some e) ∧
        (∀ d, s.definition out = some d → s'.definition out = some d)) := by
  intro todo
  induction todo with
  | nil =>
    intro s s' hker hndt hok
    have : s = s' := by simpa [List.foldlM, pure, Except.pure] using hok
    subst this
    exact ⟨rfl, rfl, fun h => h, fun v _ => rfl, fun out h => absurd h (by simp)⟩
  | cons out rest ih =>
    intro s s' hker hndt hok
    rw [List.foldlM_cons] at hok
    obtain ⟨s1, h1, h2⟩ := except_bind_ok.mp hok
    obtain ⟨kKer, kEx, kUses, kVal, kFrame, kNone, kSome⟩ :=
      regOut_kernel_step sig e out hker h1
    have hndt1 : rest.Nodup := (List.nodup_cons.mp hndt).2
    have houtnr : out ∉ rest := (List.nodup_cons.mp hndt).1
    obtain ⟨iEx, iUses, iVal, iFrame, iOuts⟩ := ih s1 s' kKer hndt1 h2
    refine ⟨iEx.trans kEx, iUses.trans kUses, fun h => iVal (kVal h), ?_, ?_⟩
    · intro v hv
      have hvr : v ∉ rest := fun h => hv (by simp [h])
      have hvo : v ≠ out := fun h => hv (by simp [h])
      rw [iFrame v hvr, kFrame v hvo]
    · intro o ho
      rcases List.mem_cons.mp ho with hoh | hor
      · subst hoh
        constructor
        · intro hnone
          rw [iFrame o houtnr]
          exact kNone hnone
        · intro d hd
          rw [iFrame o houtnr]
          rw [kSome d hd]
          exact hd
      · have hone : o ≠ out := fun h => houtnr (h ▸ hor)
        constructor
        · intro hnone
          exact (iOuts o hor).1 (by rw [kFrame o hone]; exact hnone)
        · intro d hd
          exact (iOuts o hor).2 d (by rw [kFrame o hone]; exact hd)

/-- Signature for the C1 kernel-mode counterexample: expressions `1` and `2`
both produce value `10` and have no inputs. -/
def exSigK : FusionSig where
  kind := fun _ => VKind.tensor
  isConst := fun _ => false
  exprIns := fun _ => []
  exprOuts := fun e => if e = 1 ∨ e = 2 then [10] else []

/-- Kernel-flavour container in which value `10` is already defined by
expression `1`. -/
def exStK : FusionState :=
  { exStDup with
    vals := [10], inputs := [], isFusionInput := fun _ => false,
    exprs := [1],
    definition := fun n => if n = 10 then some 1 else none,
    isKernel := true }

/-- C1 counterexample: in the kernel (non-single-assignment) flavour,
registering expression `2` over output `10` — which already has definition
expression `1` — leaves the existing definition in place and does not remove
expression `1`, contradicting the claim that in kernel mode "an existing
definition is first removed before the new definition is set". -/
theorem registerExpr_kernel_counterexample :
    ∃ st', registerExpr exSigK exStK 2 = Except.ok st' ∧
      st'.definition 10 = some 1 ∧ (1 : Nat) ∈ st'.exprs := by
  refine ⟨_, rfl, ?_, ?_⟩ <;> decide

/-- C1 (amended): registering a fresh expression appends it to each non-tensor
input's use list and invalidates the whole use-list cache for tensor inputs;
the definition pointer is installed on each output, where registerExpr fails
to overwrite an existing definition only in the kernel (non-single-assignment)
flavour, and in single-assignment mode an existing definition is first
removed before the new definition is set. -/
theorem registerExpr_spec (sig : FusionSig) (st : FusionState) (e : Nat)
    (st' : FusionState)
    (hnotin : e ∉ st.exprs)
    (hnd : st.exprs.Nodup)
    (hndout : (sig.exprOuts e).Nodup)
    (hfreshUse : ∀ v, e ∉ st.uses v)
    (hfreshDef : ∀ v, st.definition v ≠ some e)
    (hdefin : ∀ v d, st.definition v = some d → d ∈ st.exprs)
    (hcons : ∀ d, d ∈ st.exprs → ∀ v, v ∈ sig.exprOuts d →
      st.definition v = some d)
    (hok : registerExpr sig st e = Except.ok st') :
    (∀ input, input ∈ sig.exprIns e → sig.kind input ≠ VKind.tensor →
      ∃ lp, st'.uses input = lp ++ [e]) ∧
    ((∃ input, input ∈ sig.exprIns e ∧ sig.kind input = VKind.tensor) →
      st'.allTvUsesValid = false) ∧
    (st.isKernel = false → ∀ out, out ∈ sig.exprOuts e →
      st'.definition out = some e ∧
      (∀ d, st.definition out = some d → d ∉ st'.exprs)) ∧
    (st.isKernel = true → ∀ out, out ∈ sig.exprOuts e →
      (st.definition out = none → st'.definition out = some e) ∧
      (∀ d, st.definition out = some d →
        st'.definition out = some d ∧ d ∈ st'.exprs)) := by
  unfold registerExpr at hok
  rw [if_neg hnotin] at hok
  obtain ⟨s1, h1, h2⟩ := except_bind_ok.mp hok
  obtain ⟨hex1, hdef1, hker1, hshp1, hper1, htens1, hval1⟩ :=
    regIns_ok sig e (sig.exprIns e) { st with exprs := st.exprs ++ [e] } s1
      (fun v => Or.inl (hfreshUse v)) h1
  have hex1s : s1.exprs = st.exprs ++ [e] := hex1
  have hdef1s : s1.definition = st.definition := hdef1
  have hker1s : s1.isKernel = st.isKernel := hker1
  cases hkernel : st.isKernel
  case false =>
    have hk1 : s1.isKernel = false := by rw [hker1s]; exact hkernel
    have hnd1 : s1.exprs.Nodup := by
      rw [hex1s]
      refine List.Nodup.append hnd (by simp) ?_
      intro a ha hb
      rw [List.mem_singleton] at hb
      subst hb
      exact hnotin ha
    have hfr : ∀ out ∈ sig.exprOuts e, s1.definition out ≠ some e := by
      intro out _
      rw [hdef1s]
      exact hfreshDef out
    have hci : ∀ d, d ∈ s1.exprs → d ≠ e → ∀ v, v ∈ sig.exprOuts d →
        s1.definition v = some d := by
      intro d hd hde v hv
      rw [hex1s] at hd
      rcases List.mem_append.mp hd with h | h
      · rw [hdef1s]
        exact hcons d h v hv
      · rw [List.mem_singleton] at h
        exact absurd h hde
    obtain ⟨rA, rB, rC, rD, rE⟩ :=
      regOuts_ssa sig e (sig.exprOuts e) s1 st' hk1 hnd1 hndout hfr hci h2
    refine ⟨?_, ?_, ?_, ?_⟩
    · intro input hin hnt
      exact rD input (hper1 input hin hnt)
    · intro hex
      exact rE (htens1 hex)
    · intro _ out hout
      refine ⟨(rC out hout).1, ?_⟩
      intro d hd
      exact (rC out hout).2 d (by rw [hdef1s]; exact hd)
    · intro hcontra
      exact absurd hcontra (by simp)
  case true =>
    have hk1 : s1.isKernel = true := by rw [hker1s]; exact hkernel
    obtain ⟨kEx, kUses, kVal, kFrame, kOuts⟩ :=
      regOuts_kernel sig e (sig.exprOuts e) s1 st' hk1 hndout h2
    refine ⟨?_, ?_, ?_, ?_⟩
    · intro input hin hnt
      have hs1 := hper1 input hin hnt
      rw [kUses]
      exact hs1
    · intro hex
      exact kVal (htens1 hex)
    · intro hcontra
      exact absurd hcontra (by simp)
    · intro _ out hout
      constructor
      · intro hnone
        exact (kOuts out hout).1 (by rw [hdef1s]; exact hnone)
      · intro d hd
        refine ⟨(kOuts out hout).2 d (by rw [hdef1s]; exact hd), ?_⟩
        rw [kEx, hex1s]
        exact List.mem_append.mpr (Or.inl (hdefin out d hd))

/-- Signature for the C1 witness: expression `2` consumes scalar `7` and
tensor `8` and produces value `10`; expression `1` also produces value
`10`. -/
def exSigC1 : FusionSig where
  kind := fun n => if n = 8 ∨ n = 10 then VKind.tensor else VKind.scalar
  isConst := fun _ => false
  exprIns := fun e => if e = 2 then [7, 8] else []
  exprOuts := fun e => if e = 1 ∨ e = 2 then [10] else []

/-- Single-assignment container in which value `10` is defined by expression
`1`, before expression `2` is registered. -/
def exStC1 : FusionState :=
  { exStDup with
    vals := [7, 8, 10], inputs := [], isFusionInput := fun _ => false,
    exprs := [1],
    definition := fun n => if n = 10 then some 1 else none,
    isKernel := false }

/-- Witness for C1 (amended) at a concrete single-assignment container. -/
theorem registerExpr_spec_witness :
    ∃ st', registerExpr exSigC1 exStC1 2 = Except.ok st' ∧
      (∃ lp, st'.uses 7 = lp ++ [2]) ∧
      st'.allTvUsesValid = false ∧
      st'.definition 10 = some 2 ∧ (1 : Nat) ∉ st'.exprs := by
  obtain ⟨st', hok⟩ : ∃ st', registerExpr exSigC1 exStC1 2 = Except.ok st' :=
    ⟨_, rfl⟩
  have h := registerExpr_spec exSigC1 exStC1 2 st'
    (by decide)
    (by decide)
    (by decide)
    (by intro v; simp [exStC1, exStDup])
    (by
      intro v
      show (if v = 10 then some 1 else none) ≠ some 2
      split <;> simp)
    (by
      intro v d h
      have hv : v = 10 := by
        by_contra hv
        rw [show exStC1.definition v = (if v = 10 then some 1 else none)
          from rfl] at h
        rw [if_neg hv] at h
        exact absurd h (by simp)
      subst hv
      rw [show exStC1.definition 10 = some 1 from rfl] at h
      injection h with h
      subst h
      decide)
    (by
      intro d hd v hv
      have hd1 : d = 1 := by
        have : d ∈ [1] := hd
        rw [List.mem_singleton] at this
        exact this
      subst hd1
      have hv10 : v = 10 := by
        have : v ∈ [10] := hv
        rw [List.mem_singleton] at this
        exact this
      subst hv10
      decide)
    hok
  have hssa := h.2.2.1 (by decide) 10 (by decide)
  exact ⟨st', hok, h.1 7 (by decide) (by decide),
    h.2.1 ⟨8, by decide, by decide⟩, hssa.1, hssa.2 1 (by decide)⟩

/-- Miniature expression node for the value-substitution utilities: identity,
ordered inputs, ordered outputs, and value-typed attributes. -/
structure MExpr : Type where
  eid : Nat
  ins : List Nat
  outs : List Nat
  attrs : List Nat
deriving DecidableEq

/-- Application of the one-entry mutation map `{reference ↦ substitute}` of
`ValReplacement::SubstituteInExpr` to a single operand. -/
def applyMutation (reference substitute v : Nat) : Nat :=
  if v = reference then substitute else v

/-- `ValReplacement::SubstituteInExpr::subsitute` composed with
`OptOutMutator::mutate(Expr*)`.  Modelled from the spec: the generic mutator
lives in `ir/mutator.cpp` (not among the sources); per the spec it rebuilds
the expression "with mutated inputs/attributes" and registers a new
expression only when some operand actually changed, `SubstituteInExpr`
returning the original expression otherwise (`sie.expr_ == nullptr`).
`freshId` stands for the identity of the newly allocated node. -/
def substituteInExpr (freshId : Nat) (e : MExpr) (reference substitute : Nat) :
    MExpr :=
  let ins := e.ins.map (applyMutation reference substitute)
  let ats := e.attrs.map (applyMutation reference substitute)
  if ins = e.ins ∧ ats = e.attrs then e
  else { eid := freshId, ins := ins, outs := e.outs, attrs := ats }

theorem map_applyMutation_of_not_mem {r s : Nat} {l : List Nat} (h : r ∉ l) :
    l.map (applyMutation r s) = l := by
  induction l with
  | nil => rfl
  | cons x xs ih =>
    rw [List.map_cons]
    have hx : x ≠ r := fun hh => h (by simp [hh])
    rw [show applyMutation r s x = x from if_neg hx]
    rw [ih (fun hh => h (by simp [hh]))]

theorem map_applyMutation_ne {r s : Nat} (hne : s ≠ r) :
    ∀ l : List Nat, r ∈ l → l.map (applyMutation r s) ≠ l := by
  intro l
  induction l with
  | nil =>
    intro h
    exact absurd h (by simp)
  | cons x xs ih =>
    intro hmem heq
    rw [List.map_cons] at heq
    injection heq with h1 h2
    rcases List.mem_cons.mp hmem with hx | hx
    · subst hx
      rw [show applyMutation r s r = s from if_pos rfl] at h1
      exact hne h1
    · exact ih hx h2

/-- C8 counterexample: substituting a value for itself (`substitute =
reference`) where the reference IS an operand returns the original expression
object unchanged (no mutation is recorded, `expr_` stays null), not a new
expression, refuting the claim that an operand match always yields a new
expression. -/
theorem substituteInExpr_self_counterexample :
    substituteInExpr 99 ⟨0, [1], [2], []⟩ 1 1 = ⟨0, [1], [2], []⟩ := by
  decide

/-- C8 (amended): if the reference value is not among the expression's
operands (inputs or value attributes), single-value substitution returns the
identical expression object; if the reference is an operand and the
substitute differs from the reference, it returns a new expression in which
every occurrence of the reference is replaced by the substitute and all other
operands and the outputs are unchanged. -/
theorem substituteInExpr_spec (freshId : Nat) (e : MExpr)
    (reference substitute : Nat) :
    ((reference ∉ e.ins ∧ reference ∉ e.attrs) →
      substituteInExpr freshId e reference substitute = e) ∧
    ((reference ∈ e.ins ∨ reference ∈ e.attrs) → substitute ≠ reference →
      substituteInExpr freshId e reference substitute =
        { eid := freshId,
          ins := e.ins.map (applyMutation reference substitute),
          outs := e.outs,
          attrs := e.attrs.map (applyMutation reference substitute) } ∧
      (freshId ≠ e.eid →
        substituteInExpr freshId e reference substitute ≠ e)) := by
  constructor
  · intro ⟨hin, hat⟩
    unfold substituteInExpr
    rw [if_pos ⟨map_applyMutation_of_not_mem hin, map_applyMutation_of_not_mem hat⟩]
  · intro hmem hne
    have hcond : ¬(e.ins.map (applyMutation reference substitute) = e.ins ∧
        e.attrs.map (applyMutation reference substitute) = e.attrs) := by
      rcases hmem with h | h
      · exact fun hc => map_applyMutation_ne hne e.ins h hc.1
      · exact fun hc => map_applyMutation_ne hne e.attrs h hc.2
    constructor
    · unfold substituteInExpr
      rw [if_neg hcond]
    · intro hfresh hcontra
      have heid : (substituteInExpr freshId e reference substitute).eid = freshId := by
        unfold substituteInExpr
        rw [if_neg hcond]
      rw [hcontra] at heid
      exact hfresh heid.symm

/-- Witness for C8 (amended) at concrete expressions. -/
theorem substituteInExpr_spec_witness :
    substituteInExpr 9 ⟨0, [1, 2], [3], []⟩ 5 7 = ⟨0, [1, 2], [3], []⟩ ∧
    substituteInExpr 9 ⟨0, [1, 2], [3], []⟩ 1 7 = ⟨9, [7, 2], [3], []⟩ := by
  constructor
  · exact (substituteInExpr_spec 9 ⟨0, [1, 2], [3], []⟩ 5 7).1 (by decide)
  · have h := (substituteInExpr_spec 9 ⟨0, [1, 2], [3], []⟩ 1 7).2
      (Or.inl (by decide)) (by decide)
    rw [h.1]
    rfl

/-- Iteration kinds relevant to `compareDomains`: ordinary iteration,
broadcast, and symbolic (dynamic-size) axes. -/
inductive IterType : Type
  | iteration
  | broadcast
  | symbolic
deriving DecidableEq

/-- A recorded transform expression between iteration domains (split, merge,
resize, ...): an identity plus ordered input and output axis ids. -/
structure TExpr : Type where
  tid : Nat
  ins : List Nat
  outs : List Nat
deriving DecidableEq

/-- Traversal direction of a transform expression. -/
inductive TDir : Type
  | fwd
  | bwd
deriving DecidableEq

/-- `CompareDomainResult` of `ir_utils::compareDomains`. -/
structure CompareDomainResult : Type where
  dom0_has_unreachable_ids : Bool := false
  dom1_has_unreachable_ids : Bool := false
deriving DecidableEq

/-- One expression is usable by the breadth-first traversal when all of its
inputs (forward) or all of its outputs (backward) are already reached. -/
def gebUsable (reached : List Nat) (e : TExpr) : Option TDir :=
  if e.ins.all (fun v => v ∈ reached) then some .fwd
  else if e.outs.all (fun v => v ∈ reached) then some .bwd
  else none

/-- One breadth-first level: partition the untraversed expressions into the
usable ones (with their directions) and the rest. -/
def gebLevel (reached : List Nat) : List TExpr → List (TExpr × TDir) × List TExpr
  | [] => ([], [])
  | e :: rest =>
    let (steps, rem) := gebLevel reached rest
    match gebUsable reached e with
    | some d => ((e, d) :: steps, rem)
    | none => (steps, e :: rem)

/-- The ids produced by a directed traversal step. -/
def gebTo (step : TExpr × TDir) : List Nat :=
  match step.2 with
  | .fwd => step.1.outs
  | .bwd => step.1.ins

def gebGo : List Nat → Nat → List Nat → List TExpr → List (TExpr × TDir) →
    List (TExpr × TDir)
  | _, 0, _, _, acc => acc
  | targets, fuel + 1, reached, remaining, acc =>
    if targets.all (fun v => v ∈ reached) then acc
    else
      let lv := gebLevel reached remaining
      if lv.1 = [] then acc
      else gebGo targets fuel (reached ++ (lv.1.map gebTo).flatten) lv.2
        (acc ++ lv.1)

/-- Modelled from the spec: `IRBFS::getExprsBetween` (the BFS engine is not
among the sources) — "run a bidirectional breadth-first traversal of
transform expressions between the (dom0 ∪ additional-ids) node set and dom1",
returning the traversed expressions together with their directions, stopping
once every target is reached. -/
def getExprsBetween (graph : List TExpr) (sources targets : List Nat) :
    List (TExpr × TDir) :=
  gebGo targets (graph.length + 1) sources graph []

def reachStep (graph : List TExpr) (reached : List Nat) : List Nat :=
  graph.foldl (fun acc e =>
    if e.ins.all (fun v => v ∈ acc) then acc ++ e.outs.filter (fun v => v ∉ acc)
    else if e.outs.all (fun v => v ∈ acc) then
      acc ++ e.ins.filter (fun v => v ∉ acc)
    else acc) reached

def reachSat (graph : List TExpr) : Nat → List Nat → List Nat
  | 0, reached => reached
  | n + 1, reached => reachSat graph n (reachStep graph reached)

/-- Modelled from the spec: `IRBFS::getReachableValsFrom` (not among the
sources) — whether an axis id is reachable from a source set through the
recorded transform expressions, traversed in either direction. -/
def isReachableFrom (graph : List TExpr) (sources : List Nat) (id : Nat) :
    Bool :=
  id ∈ reachSat graph (graph.length + 1) sources

/-- The "from"/"to" node lists of a traversal step of `compareDomains`,
depending on its direction. -/
def stepFromTo (step : TExpr × TDir) : List Nat × List Nat :=
  match step.2 with
  | .fwd => (step.1.ins, step.1.outs)
  | .bwd => (step.1.outs, step.1.ins)

/-- The to-node insertion loop of `compareDomains`: every to-node outside the
additional-ids set must be newly inserted into the frontier. -/
def insertToNodes (additional : Finset Nat) (frontier : Finset Nat)
    (toNodes : List Nat) : Except String (Finset Nat) :=
  toNodes.foldlM (fun fr v =>
    if v ∈ additional then .ok fr
    else if v ∈ fr then
      .error "Invalid derived domain: output should just show up once"
    else .ok (insert v fr)) frontier

/-- The from-node erasure loop of `compareDomains`: every from-node must be
erased from the frontier exactly once, unless it is an ignored broadcast axis
or belongs to the additional-ids set. -/
def eraseFromNodes (ty : Nat → IterType) (ig : Bool) (additional : Finset Nat)
    (frontier : Finset Nat) (fromNodes : List Nat) :
    Except String (Finset Nat) :=
  fromNodes.foldlM (fun fr v =>
    if v ∈ fr then .ok (fr.erase v)
    else if (ig ∧ ty v = .broadcast) ∨ v ∈ additional then .ok fr
    else .error "Invalid derived domain: input not seen before") frontier

/-- Body of the traversal loop of `ir_utils::compareDomains` for one
`(expr, direction)` pair: expressions rooted entirely in additional-ids only
propagate that set, any other expression updates the frontier through
`insertToNodes` and `eraseFromNodes`. -/
def compareStep (ty : Nat → IterType) (ig : Bool)
    (st : Finset Nat × Finset Nat) (step : TExpr × TDir) :
    Except String (Finset Nat × Finset Nat) :=
  if (stepFromTo step).1.all (fun v => v ∈ st.2) then
    .ok (st.1, st.2 ∪ (stepFromTo step).2.toFinset)
  else
    (insertToNodes st.2 st.1 (stepFromTo step).2) >>= fun fr1 =>
    (eraseFromNodes ty ig st.2 fr1 (stepFromTo step).1) >>= fun fr2 =>
    .ok (fr2, st.2)

/-- One id of the `check_ids` helper of `compareDomains`: symbolic axes (and
ignored broadcast axes) are skipped, an id missing from the target set makes
the result `true` unless it is reachable from the target set, which raises
the internal "redundant" error. -/
def checkIdsStep (ty : Nat → IterType) (ig : Bool) (graph : List TExpr)
    (targetSet : Finset Nat) (unreachable : Bool) (id : Nat) :
    Except String Bool :=
  if ty id = .symbolic ∨ (ig ∧ ty id = .broadcast) then .ok unreachable
  else if id ∈ targetSet then .ok unreachable
  else if isReachableFrom graph (targetSet.sort (fun a b => a ≤ b)) id then
    .error "id is redundant"
  else .ok true

/-- The `check_ids` helper of `compareDomains`. -/
def checkIds (ty : Nat → IterType) (ig : Bool) (graph : List TExpr)
    (idsToCheck : List Nat) (targetSet : Finset Nat) : Except String Bool :=
  idsToCheck.foldlM (checkIdsStep ty ig graph targetSet) false

/-- The two unreachability checks at the end of `compareDomains`, after the
symbolic removal. -/
def compareFinish2 (ty : Nat → IterType) (ig : Bool) (graph : List TExpr)
    (dom1 : List Nat) (frontier dom1Set : Finset Nat) :
    Except String CompareDomainResult :=
  (if ¬ (frontier.filter (fun id => ty id = IterType.symbolic)).Nonempty then
      checkIds ty ig graph dom1 frontier
    else .ok false) >>= fun b1 =>
  (if ¬ (dom1Set.filter (fun id => ty id = IterType.symbolic)).Nonempty then
      checkIds ty ig graph (frontier.sort (fun a b => a ≤ b)) dom1Set
    else .ok false) >>= fun b0 =>
  .ok { dom0_has_unreachable_ids := b0, dom1_has_unreachable_ids := b1 }

/-- Tail of `compareDomains` after the traversal loop: symbolic ids present
in both the frontier and dom1 are dropped from both sides, then the two
unreachability checks run unless the corresponding side still holds a
symbolic id. -/
def compareFinish (ty : Nat → IterType) (ig : Bool) (graph : List TExpr)
    (dom1 : List Nat) (frontier0 dom1Set0 : Finset Nat) :
    Except String CompareDomainResult :=
  compareFinish2 ty ig graph dom1
    (frontier0 \ frontier0.filter (fun id => ty id = .symbolic ∧ id ∈ dom1Set0))
    (dom1Set0 \ frontier0.filter (fun id => ty id = .symbolic ∧ id ∈ dom1Set0))

/-- `ir_utils::compareDomains`: duplicate checks, bidirectional BFS between
`dom0 ++ additional_ids` and `dom1`, frontier propagation through
`compareStep`, and the final reachability report. -/
def compareDomains (ty : Nat → IterType) (graph : List TExpr)
    (dom0 dom1 additional_ids : List Nat) (ignore_broadcast : Bool) :
    Except String CompareDomainResult :=
  if dom0 = [] ∧ dom1 = [] then .ok {}
  else if ¬ dom0.Nodup then .error "Duplicated entry is detected in dom0"
  else if ¬ dom1.Nodup then .error "Duplicated entry is detected in dom1"
  else
    ((getExprsBetween graph (dom0 ++ additional_ids) dom1).foldlM
      (compareStep ty ignore_broadcast)
      ((dom0 ++ additional_ids).toFinset, additional_ids.toFinset)) >>=
    fun fa => compareFinish ty ignore_broadcast graph dom1 fa.1 dom1.toFinset

theorem gebGo_succ (targets : List Nat) (fuel : Nat) (reached : List Nat)
    (remaining : List TExpr) (acc : List (TExpr × TDir)) :
    gebGo targets (fuel + 1) reached remaining acc =
      if targets.all (fun v => v ∈ reached) then acc
      else
        let lv := gebLevel reached remaining
        if lv.1 = [] then acc
        else gebGo targets fuel (reached ++ (lv.1.map gebTo).flatten) lv.2
          (acc ++ lv.1) := rfl

theorem getExprsBetween_sub (graph : List TExpr) (sources targets : List Nat)
    (h : ∀ t ∈ targets, t ∈ sources) :
    getExprsBetween graph sources targets = [] := by
  unfold getExprsBetween
  rw [gebGo_succ]
  rw [if_pos ?_]
  rw [List.all_eq_true]
  intro x hx
  simpa using h x hx

theorem checkIds_found (ty : Nat → IterType) (ig : Bool) (graph : List TExpr)
    (target : Finset Nat) :
    ∀ (ids : List Nat) (b : Bool),
      (∀ id ∈ ids,
        (ty id = IterType.symbolic ∨ (ig ∧ ty id = IterType.broadcast)) ∨
        id ∈ target) →
      ids.foldlM (checkIdsStep ty ig graph target) b = Except.ok b := by
  intro ids
  induction ids with
  | nil =>
    intro b _
    rfl
  | cons id rest ih =>
    intro b hall
    rw [List.foldlM_cons]
    have hstep : checkIdsStep ty ig graph target b id = Except.ok b := by
      unfold checkIdsStep
      rcases hall id (by simp) with hskip | hmem
      · rw [if_pos hskip]
      · by_cases hskip : ty id = IterType.symbolic ∨
            (ig ∧ ty id = IterType.broadcast)
        · rw [if_pos hskip]
        · rw [if_neg hskip, if_pos hmem]
    rw [hstep]
    show rest.foldlM (checkIdsStep ty ig graph target) b = Except.ok b
    exact ih b (fun x hx => hall x (by simp [hx]))

theorem compareFinish2_ok (ty : Nat → IterType) (ig : Bool)
    (graph : List TExpr) (dom1 : List Nat) (frontier dom1Set : Finset Nat)
    (ha : ¬ (frontier.filter (fun id => ty id = IterType.symbolic)).Nonempty)
    (hb : ¬ (dom1Set.filter (fun id => ty id = IterType.symbolic)).Nonempty)
    (hc : ∀ id ∈ dom1,
      (ty id = IterType.symbolic ∨ (ig ∧ ty id = IterType.broadcast)) ∨
      id ∈ frontier)
    (hd : ∀ id, id ∈ frontier → id ∈ dom1Set) :
    compareFinish2 ty ig graph dom1 frontier dom1Set = Except.ok {} := by
  unfold compareFinish2
  rw [if_pos ha, if_pos hb]
  unfold checkIds
  rw [checkIds_found ty ig graph frontier dom1 false hc]
  rw [checkIds_found ty ig graph dom1Set (frontier.sort (fun a b => a ≤ b))
    false ?_]
  · rfl
  · intro id hid
    right
    exact hd id ((Finset.mem_sort (fun a b => a ≤ b)).mp hid)

theorem ok_bind {α β : Type} (a : α) (f : α → Except String β) :
    (Except.ok a >>= f) = f a := rfl

theorem compareFinish_refl (ty : Nat → IterType) (ig : Bool)
    (graph : List TExpr) (dom1 : List Nat)
    (hsub : ∀ id ∈ dom1, id ∈ dom1.toFinset) :
    compareFinish ty ig graph dom1 dom1.toFinset dom1.toFinset =
      Except.ok {} := by
  unfold compareFinish
  apply compareFinish2_ok
  · rintro ⟨x, hx⟩
    rw [Finset.mem_filter, Finset.mem_sdiff, Finset.mem_filter] at hx
    exact hx.1.2 ⟨hx.1.1, hx.2, hx.1.1⟩
  · rintro ⟨x, hx⟩
    rw [Finset.mem_filter, Finset.mem_sdiff, Finset.mem_filter] at hx
    exact hx.1.2 ⟨hx.1.1, hx.2, hx.1.1⟩
  · intro id hid
    by_cases hsymb : ty id = IterType.symbolic
    · exact Or.inl (Or.inl hsymb)
    · right
      rw [Finset.mem_sdiff]
      refine ⟨hsub id hid, ?_⟩
      rw [Finset.mem_filter]
      rintro ⟨_, hcontra, _⟩
      exact hsymb hcontra
  · intro id hid
    exact hid

/-- C3: comparing two identical duplicate-free domain lists reports both
domains fully reachable, and comparing one axis against the two axes it is
split into by a recorded transform also reports both domains fully
reachable. -/
theorem compareDomains_spec (ty : Nat → IterType) (ig : Bool) :
    (∀ (graph : List TExpr) (d : List Nat), d.Nodup →
      compareDomains ty graph d d [] ig =
        Except.ok { dom0_has_unreachable_ids := false,
                    dom1_has_unreachable_ids := false }) ∧
    (∀ (sp : TExpr) (a b c : Nat), sp.ins = [a] → sp.outs = [b, c] →
      a ≠ b → a ≠ c → b ≠ c →
      compareDomains ty [sp] [a] [b, c] [] ig =
        Except.ok { dom0_has_unreachable_ids := false,
                    dom1_has_unreachable_ids := false }) := by
  constructor
  · intro graph d hnd
    by_cases hde : d = []
    · subst hde
      rfl
    · unfold compareDomains
      rw [if_neg (fun h => hde h.1)]
      rw [if_neg (not_not_intro hnd), if_neg (not_not_intro hnd)]
      rw [getExprsBetween_sub graph (d ++ []) d (fun t ht => by simp [ht])]
      rw [List.foldlM_nil]
      have hfin : (d ++ ([] : List Nat)).toFinset = d.toFinset := by simp
      show compareFinish ty ig graph d ((d ++ ([] : List Nat)).toFinset)
          d.toFinset =
        Except.ok { dom0_has_unreachable_ids := false,
                    dom1_has_unreachable_ids := false }
      rw [hfin]
      exact compareFinish_refl ty ig graph d (fun id hid => by simpa using hid)
  · intro sp a b c hins houts hab hac hbc
    unfold compareDomains
    rw [if_neg (by simp)]
    rw [if_neg (not_not_intro (by simp))]
    rw [if_neg (not_not_intro (by simp [hbc]))]
    have c1 : ¬([b, c].all (fun v => v ∈ ([a] ++ ([] : List Nat))) = true) := by
      rw [List.all_eq_true]
      intro hall
      have hb2 := hall b (by simp)
      rw [decide_eq_true_iff] at hb2
      rw [List.append_nil, List.mem_singleton] at hb2
      exact hab hb2.symm
    have hu : gebUsable ([a] ++ []) sp = some TDir.fwd := by
      unfold gebUsable
      rw [hins]
      rw [if_pos ?_]
      rw [List.all_eq_true]
      intro x hx
      rw [List.mem_singleton] at hx
      subst hx
      simp
    have hlv : gebLevel ([a] ++ []) [sp] = ([(sp, TDir.fwd)], []) := by
      show (let p := gebLevel ([a] ++ []) [];
        match gebUsable ([a] ++ []) sp with
        | some d => ((sp, d) :: p.1, p.2)
        | none => (p.1, sp :: p.2)) = _
      rw [hu]
      rfl
    have hgeb : getExprsBetween [sp] ([a] ++ []) [b, c] = [(sp, TDir.fwd)] := by
      unfold getExprsBetween
      rw [show ([sp] : List TExpr).length + 1 = 1 + 1 from rfl]
      rw [gebGo_succ, if_neg c1]
      rw [hlv]
      show (if ([(sp, TDir.fwd)] : List (TExpr × TDir)) = [] then []
        else gebGo [b, c] 1
          (([a] ++ []) ++ ([(sp, TDir.fwd)].map gebTo).flatten) []
          ([] ++ [(sp, TDir.fwd)])) = [(sp, TDir.fwd)]
      rw [if_neg (by simp)]
      rw [show (1 : Nat) = 0 + 1 from rfl, gebGo_succ]
      rw [if_pos ?_]
      · rfl
      · rw [List.all_eq_true]
        intro x hx
        rw [decide_eq_true_iff]
        rw [List.mem_append]
        right
        show x ∈ ([gebTo (sp, TDir.fwd)] : List (List Nat)).flatten
        show x ∈ (sp.outs :: []).flatten
        rw [houts]
        simpa using hx
    rw [hgeb]
    rw [List.foldlM_cons]
    have hb0 : (b : Nat) ∉ (([] : List Nat)).toFinset := by simp
    have hc0 : (c : Nat) ∉ (([] : List Nat)).toFinset := by simp
    have hb1 : (b : Nat) ∉ ([a] ++ ([] : List Nat)).toFinset := by
      simp [Ne.symm hab]
    have hc1 : (c : Nat) ∉ insert b ([a] ++ ([] : List Nat)).toFinset := by
      simp [Ne.symm hac, Ne.symm hbc]
    have hins1 : insertToNodes (([] : List Nat)).toFinset
        (([a] ++ []).toFinset) (stepFromTo (sp, TDir.fwd)).2 =
        Except.ok (insert c (insert b (([a] ++ []).toFinset))) := by
      show insertToNodes _ _ sp.outs = _
      rw [houts]
      unfold insertToNodes
      simp only [List.foldlM_cons, List.foldlM_nil]
      rw [if_neg hb0, if_neg hb1, ok_bind, if_neg hc0, if_neg hc1, ok_bind]
      rfl
    have hamem : (a : Nat) ∈ insert c (insert b (([a] ++ []).toFinset)) := by
      simp
    have hers : eraseFromNodes ty ig (([] : List Nat)).toFinset
        (insert c (insert b (([a] ++ []).toFinset)))
        (stepFromTo (sp, TDir.fwd)).1 =
        Except.ok ((insert c (insert b (([a] ++ []).toFinset))).erase a) := by
      show eraseFromNodes _ _ _ _ sp.ins = _
      rw [hins]
      unfold eraseFromNodes
      simp only [List.foldlM_cons, List.foldlM_nil]
      rw [if_pos hamem, ok_bind]
      rfl
    have hd1 : ¬((stepFromTo (sp, TDir.fwd)).1.all
        (fun v => v ∈ (([] : List Nat)).toFinset) = true) := by
      show ¬(sp.ins.all _ = true)
      rw [hins, List.all_eq_true]
      intro hall
      have := hall a (by simp)
      rw [decide_eq_true_iff] at this
      simp at this
    have hseteq : (insert c (insert b (([a] ++ ([] : List Nat))).toFinset)).erase a
        = [b, c].toFinset := by
      ext x
      constructor
      · intro hx
        rw [Finset.mem_erase] at hx
        obtain ⟨hxa, hx⟩ := hx
        rw [Finset.mem_insert] at hx
        rcases hx with rfl | hx
        · simp
        · rw [Finset.mem_insert] at hx
          rcases hx with rfl | hx
          · simp
          · exfalso
            apply hxa
            simpa using hx
      · intro hx
        rw [List.mem_toFinset, List.mem_cons, List.mem_singleton] at hx
        rw [Finset.mem_erase]
        rcases hx with rfl | rfl
        · exact ⟨fun h => hab h.symm, by simp⟩
        · exact ⟨fun h => hac h.symm, by simp⟩
    have hstep : compareStep ty ig ((([a] ++ []).toFinset),
        ((([] : List Nat)).toFinset)) (sp, TDir.fwd) =
        Except.ok ([b, c].toFinset, (([] : List Nat)).toFinset) := by
      unfold compareStep
      rw [if_neg hd1]
      rw [hins1, ok_bind, hers, ok_bind]
      rw [hseteq]
    rw [hstep]
    rw [ok_bind]
    rw [List.foldlM_nil]
    show compareFinish ty ig [sp] [b, c] ([b, c].toFinset) ([b, c].toFinset) =
      Except.ok {}
    exact compareFinish_refl ty ig [sp] [b, c] (fun id hid => by simpa using hid)

/-- Witness for C3 at concrete domains: an identical pair of lists and a
concrete split of axis 0 into axes 1 and 2. -/
theorem compareDomains_spec_witness :
    compareDomains (fun _ => IterType.iteration) [] [4, 5] [4, 5] [] false =
      Except.ok { dom0_has_unreachable_ids := false,
                  dom1_has_unreachable_ids := false } ∧
    compareDomains (fun _ => IterType.iteration) [⟨0, [0], [1, 2]⟩]
        [0] [1, 2] [] false =
      Except.ok { dom0_has_unreachable_ids := false,
                  dom1_has_unreachable_ids := false } := by
  constructor
  · exact (compareDomains_spec (fun _ => IterType.iteration) false).1 []
      [4, 5] (by decide)
  · exact (compareDomains_spec (fun _ => IterType.iteration) false).2
      ⟨0, [0], [1, 2]⟩ 0 1 2 rfl rfl (by decide) (by decide) (by decide)

/-- Witness for C9 at a concrete container. -/
theorem addInput_spec_witness :
    isFailure (addInput exSig exStDup 3) = true ∧
    ∃ st', addInput exSig exStFresh 3 = Except.ok st' ∧
      st'.memoryGlobal 3 = true ∧ st'.inputs = [3] ∧
      st'.isFusionInput 3 = true ∧ st'.allTvUsesValid = false := by
  constructor
  · exact (addInput_spec exSig exStDup 3).1 (by rfl)
  · obtain ⟨st', hok⟩ : ∃ st', addInput exSig exStFresh 3 = Except.ok st' :=
      ⟨_, rfl⟩
    have h2 := (addInput_spec exSig exStFresh 3).2 st' hok
    refine ⟨st', hok, h2.1 rfl, ?_, h2.2.2.1, h2.2.2.2⟩
    rw [h2.2.1]
    rfl

theorem isFailure_bind {α β : Type} (e : Except String α)
    (f : α → Except String β) (h : isFailure e = true) :
    isFailure (e >>= f) = true := by
  cases e with
  | error s => rfl
  | ok a => exact absurd h (by simp [isFailure])

theorem insertToNodes_nil (add fr : Finset Nat) :
    insertToNodes add fr [] = .ok fr := rfl

theorem insertToNodes_cons (add fr : Finset Nat) (v : Nat) (rest : List Nat) :
    insertToNodes add fr (v :: rest) =
      (if v ∈ add then Except.ok fr
       else if v ∈ fr then
         Except.error "Invalid derived domain: output should just show up once"
       else Except.ok (insert v fr)) >>= fun fr' =>
        insertToNodes add fr' rest := rfl

theorem eraseFromNodes_nil (ty : Nat → IterType) (ig : Bool)
    (add fr : Finset Nat) : eraseFromNodes ty ig add fr [] = .ok fr := rfl

theorem eraseFromNodes_cons (ty : Nat → IterType) (ig : Bool)
    (add fr : Finset Nat) (v : Nat) (rest : List Nat) :
    eraseFromNodes ty ig add fr (v :: rest) =
      (if v ∈ fr then Except.ok (fr.erase v)
       else if (ig ∧ ty v = IterType.broadcast) ∨ v ∈ add then Except.ok fr
       else Except.error "Invalid derived domain: input not seen before") >>=
        fun fr' => eraseFromNodes ty ig add fr' rest := rfl

theorem insertToNodes_ok (add fr : Finset Nat) (tNodes : List Nat)
    (hnd : tNodes.Nodup) (h : ∀ v ∈ tNodes, v ∉ add → v ∉ fr) :
    insertToNodes add fr tNodes =
      .ok (fr ∪ (tNodes.filter (fun v => v ∉ add)).toFinset) := by
  induction tNodes generalizing fr with
  | nil => rw [insertToNodes_nil]; simp
  | cons v rest ih =>
    rw [List.nodup_cons] at hnd
    rw [insertToNodes_cons]
    by_cases hva : v ∈ add
    · rw [if_pos hva, ok_bind,
        ih fr hnd.2 (fun w hw => h w (List.mem_cons_of_mem v hw)),
        List.filter_cons_of_neg (by simpa using hva)]
    · have hvf : v ∉ fr := h v (List.mem_cons_self v rest) hva
      rw [if_neg hva, if_neg hvf, ok_bind,
        ih (insert v fr) hnd.2 ?_,
        List.filter_cons_of_pos (by simpa using hva)]
      · rw [List.toFinset_cons, Finset.insert_union, Finset.union_insert]
      · intro w hw hwa
        rw [Finset.mem_insert]
        rintro (rfl | hwf)
        · exact hnd.1 hw
        · exact h w (List.mem_cons_of_mem v hw) hwa hwf

theorem insertToNodes_err (add fr : Finset Nat) (tNodes : List Nat)
    (v : Nat) (hv : v ∈ tNodes) (hva : v ∉ add) (hvf : v ∈ fr) :
    isFailure (insertToNodes add fr tNodes) = true := by
  induction tNodes generalizing fr with
  | nil => exact absurd hv (List.not_mem_nil v)
  | cons w rest ih =>
    rw [List.mem_cons] at hv
    rw [insertToNodes_cons]
    by_cases hwa : w ∈ add
    · rw [if_pos hwa, ok_bind]
      rcases hv with rfl | hv
      · exact absurd hwa hva
      · exact ih fr hv hvf
    · by_cases hwf : w ∈ fr
      · rw [if_neg hwa, if_pos hwf]
        rfl
      · rw [if_neg hwa, if_neg hwf, ok_bind]
        rcases hv with rfl | hv
        · exact absurd hvf hwf
        · exact ih (insert w fr) hv (Finset.mem_insert_of_mem hvf)

theorem eraseFromNodes_ok (ty : Nat → IterType) (ig : Bool)
    (add fr : Finset Nat) (fNodes : List Nat) (hnd : fNodes.Nodup)
    (h : ∀ v ∈ fNodes,
      v ∈ fr ∨ (ig = true ∧ ty v = IterType.broadcast) ∨ v ∈ add) :
    eraseFromNodes ty ig add fr fNodes = .ok (fr \ fNodes.toFinset) := by
  induction fNodes generalizing fr with
  | nil => rw [eraseFromNodes_nil]; simp
  | cons v rest ih =>
    rw [List.nodup_cons] at hnd
    rw [eraseFromNodes_cons]
    by_cases hvf : v ∈ fr
    · rw [if_pos hvf, ok_bind, ih (fr.erase v) hnd.2 ?_]
      · rw [List.toFinset_cons]
        congr 1
        ext x
        rw [Finset.mem_sdiff, Finset.mem_erase, Finset.mem_sdiff,
          Finset.mem_insert]
        constructor
        · rintro ⟨⟨hxv, hx⟩, hxr⟩
          exact ⟨hx, fun hor => hor.elim hxv hxr⟩
        · rintro ⟨hx, hor⟩
          exact ⟨⟨fun hh => hor (Or.inl hh), hx⟩, fun hh => hor (Or.inr hh)⟩
      · intro w hw
        rcases h w (List.mem_cons_of_mem v hw) with hwf | hig
        · exact Or.inl (Finset.mem_erase_of_ne_of_mem
            (fun heq => hnd.1 (heq ▸ hw)) hwf)
        · exact Or.inr hig
    · have hig : (ig = true ∧ ty v = IterType.broadcast) ∨ v ∈ add := by
        rcases h v (List.mem_cons_self v rest) with hvf2 | hig
        · exact absurd hvf2 hvf
        · exact hig
      rw [if_neg hvf, if_pos hig, ok_bind,
        ih fr hnd.2 (fun w hw => h w (List.mem_cons_of_mem v hw))]
      congr 1
      ext x
      rw [Finset.mem_sdiff, Finset.mem_sdiff, List.toFinset_cons,
        Finset.mem_insert]
      constructor
      · rintro ⟨hx, hxn⟩
        refine ⟨hx, ?_⟩
        rintro (rfl | hxr)
        · exact hvf hx
        · exact hxn hxr
      · rintro ⟨hx, hxn⟩
        exact ⟨hx, fun hxr => hxn (Or.inr hxr)⟩

theorem eraseFromNodes_err (ty : Nat → IterType) (ig : Bool)
    (add fr : Finset Nat) (fNodes : List Nat) (v : Nat) (hv : v ∈ fNodes)
    (hvf : v ∉ fr)
    (hnig : ¬ ((ig = true ∧ ty v = IterType.broadcast) ∨ v ∈ add)) :
    isFailure (eraseFromNodes ty ig add fr fNodes) = true := by
  induction fNodes generalizing fr with
  | nil => exact absurd hv (List.not_mem_nil v)
  | cons w rest ih =>
    rw [List.mem_cons] at hv
    rw [eraseFromNodes_cons]
    by_cases hwf : w ∈ fr
    · rw [if_pos hwf, ok_bind]
      rcases hv with rfl | hv
      · exact absurd hwf hvf
      · exact ih (fr.erase w) hv (fun hc => hvf (Finset.mem_of_mem_erase hc))
    · by_cases hwig : (ig = true ∧ ty w = IterType.broadcast) ∨ w ∈ add
      · rw [if_neg hwf, if_pos hwig, ok_bind]
        rcases hv with rfl | hv
        · exact absurd hwig hnig
        · exact ih fr hv hvf
      · rw [if_neg hwf, if_neg hwig]
        rfl

/-- C4: for every traversal step whose from-nodes are not all in the
additional-ids set (with duplicate-free node lists): (a) if a to-node
outside additional-ids is already in the frontier, the step fails with the
"invalid derived domain" error; (b) if all to-nodes are fresh but some
from-node is missing from the updated frontier and is neither an ignored
broadcast axis nor in additional-ids, the step fails; (c) otherwise the
step succeeds, newly inserting every to-node outside additional-ids into
the frontier and erasing every from-node from it exactly once. -/
theorem compareStep_spec (ty : Nat → IterType) (ig : Bool)
    (fr add : Finset Nat) (step : TExpr × TDir)
    (hf : ¬ ((stepFromTo step).1.all (fun v => v ∈ add) = true))
    (hndt : (stepFromTo step).2.Nodup) (hndf : (stepFromTo step).1.Nodup) :
    ((∃ v ∈ (stepFromTo step).2, v ∉ add ∧ v ∈ fr) →
      isFailure (compareStep ty ig (fr, add) step) = true) ∧
    ((∀ v ∈ (stepFromTo step).2, v ∉ add → v ∉ fr) →
      (∃ v ∈ (stepFromTo step).1,
        v ∉ fr ∪ ((stepFromTo step).2.filter (fun v => v ∉ add)).toFinset ∧
        ¬ ((ig = true ∧ ty v = IterType.broadcast) ∨ v ∈ add)) →
      isFailure (compareStep ty ig (fr, add) step) = true) ∧
    ((∀ v ∈ (stepFromTo step).2, v ∉ add → v ∉ fr) →
      (∀ v ∈ (stepFromTo step).1,
        v ∈ fr ∪ ((stepFromTo step).2.filter (fun v => v ∉ add)).toFinset ∨
        (ig = true ∧ ty v = IterType.broadcast) ∨ v ∈ add) →
      compareStep ty ig (fr, add) step =
        .ok ((fr ∪ ((stepFromTo step).2.filter (fun v => v ∉ add)).toFinset)
          \ (stepFromTo step).1.toFinset, add)) := by
  have hstep : compareStep ty ig (fr, add) step =
      (insertToNodes add fr (stepFromTo step).2) >>= fun fr1 =>
      (eraseFromNodes ty ig add fr1 (stepFromTo step).1) >>= fun fr2 =>
      .ok (fr2, add) := by
    unfold compareStep
    rw [if_neg hf]
  refine ⟨?_, ?_, ?_⟩
  · rintro ⟨v, hv, hva, hvf⟩
    rw [hstep]
    exact isFailure_bind _ _ (insertToNodes_err add fr _ v hv hva hvf)
  · rintro h1 ⟨v, hv, hvf, hnig⟩
    rw [hstep, insertToNodes_ok add fr _ hndt h1, ok_bind]
    exact isFailure_bind _ _ (eraseFromNodes_err ty ig add _ _ v hv hvf hnig)
  · intro h1 h2
    rw [hstep, insertToNodes_ok add fr _ hndt h1, ok_bind,
      eraseFromNodes_ok ty ig add _ _ hndf h2, ok_bind]

/-- Witness for C4 at a concrete forward step. -/
theorem compareStep_spec_witness :
    compareStep (fun _ => IterType.iteration) false ({1}, ∅)
      (⟨0, [1], [2]⟩, TDir.fwd) =
      .ok ((({1} : Finset Nat) ∪
        ((stepFromTo (⟨0, [1], [2]⟩, TDir.fwd)).2.filter
          (fun v => v ∉ (∅ : Finset Nat))).toFinset) \
        (stepFromTo (⟨0, [1], [2]⟩, TDir.fwd)).1.toFinset, ∅) :=
  (compareStep_spec (fun _ => IterType.iteration) false {1} ∅
    (⟨0, [1], [2]⟩, TDir.fwd) (by decide) (by decide) (by decide)).2.2
    (by decide) (by decide)

/-- A statement of the IR as traversed by the cycle detector: a value or an
expression, identified by id. -/
inductive Stmt : Type where
  | v (n : Nat)
  | e (n : Nat)
deriving DecidableEq, Repr

/-- A finite definition graph: each value id may have a defining expression,
each expression id has a list of input value ids, and `stmts` lists the
statements of the container. -/
structure DefGraph : Type where
  valDef : Nat → Option Nat
  exprIns : Nat → List Nat
  stmts : List Stmt

/-- The `next` helper of the cycle detector: a value steps to its defining
expression (if any), an expression steps to its inputs. -/
def nextStmts (g : DefGraph) : Stmt → List Stmt
  | .v n =>
    match g.valDef n with
    | some d => [.e d]
    | none => []
  | .e n => (g.exprIns n).map Stmt.v

/-- The statement set is closed under `nextStmts`. -/
def wfDG (g : DefGraph) : Bool :=
  g.stmts.all (fun s => (nextStmts g s).all (fun t => decide (t ∈ g.stmts)))

/-- `unordered_set::insert`: add an element unless already present. -/
def insertStmt (x : Stmt) (l : List Stmt) : List Stmt :=
  if x ∈ l then l else x :: l

/-- The while loop of `ir_utils::checkCycle`, with explicit fuel. The queue
front is examined: boundary or fully-visited statements are skipped; leaves
are popped into the visited set; a statement already on the path is being
cleaned up (moved from path to visited); otherwise the statement is put on
the path, its next statements are checked against the path (returning the
path on a hit) and pushed to the queue front. -/
def ccRun (g : DefGraph) (fr : List Stmt) :
    Nat → List Stmt → List Stmt → List Stmt → Option (List Stmt)
  | 0, _, _, _ => none
  | fuel + 1, path, visited, queue =>
    match queue with
    | [] => some []
    | val :: rest =>
      if val ∈ fr ∨ val ∈ visited then
        ccRun g fr fuel path visited rest
      else if nextStmts g val = [] then
        ccRun g fr fuel path (insertStmt val visited) rest
      else if val ∈ path then
        ccRun g fr fuel (path.erase val) (insertStmt val visited) rest
      else if (nextStmts g val).any (fun s => decide (s ∈ insertStmt val path)) then
        some (insertStmt val path)
      else
        ccRun g fr fuel (insertStmt val path) visited
          ((nextStmts g val).reverse ++ val :: rest)

/-- The largest `nextStmts` fan-out over the statement set. -/
def ccDeg (g : DefGraph) : Nat :=
  g.stmts.foldl (fun m s => max m (nextStmts g s).length) 0

/-- Fuel sufficient for `ccRun` to drain its queue. -/
def ccFuel (g : DefGraph) (tos : List Stmt) : Nat :=
  g.stmts.length * (ccDeg g + 1) + tos.length + 1

/-- `ir_utils::checkCycle(fusion, from, to)`: run the traversal from the
target values with empty path and visited sets. -/
def checkCycle (g : DefGraph) (fr tos : List Stmt) : Option (List Stmt) :=
  ccRun g fr (ccFuel g tos) [] [] tos

/-- The value ids among the statements. -/
def valsOf (g : DefGraph) : List Nat :=
  g.stmts.filterMap (fun s => match s with | .v n => some n | .e _ => none)

/-- `unordered_set::insert` on value ids. -/
def insertNat (x : Nat) (l : List Nat) : List Nat :=
  if x ∈ l then l else x :: l

/-- The while loop of `ir_utils::isRecursivelyDefined`, with explicit fuel:
pop a value, mark it visited, and scan its definition inputs, returning true
on the original value and enqueueing unvisited inputs. -/
def irdRun (g : DefGraph) (val : Nat) :
    Nat → List Nat → List Nat → Option Bool
  | 0, _, _ => none
  | fuel + 1, queue, visited =>
    match queue with
    | [] => some false
    | v :: rest =>
      match g.valDef v with
      | none => irdRun g val fuel rest (insertNat v visited)
      | some d =>
        if val ∈ g.exprIns d then some true
        else
          irdRun g val fuel
            (rest ++ (g.exprIns d).filter
              (fun i => decide (i ∉ insertNat v visited)))
            (insertNat v visited)

/-- `ir_utils::isRecursivelyDefined(val)`, with explicit fuel. -/
def isRecursivelyDefined (g : DefGraph) (val : Nat) (fuel : Nat) :
    Option Bool :=
  irdRun g val fuel [val] []

/-- A list is a chain in the `nextStmts` relation. -/
def chainNextb (g : DefGraph) : List Stmt → Bool
  | [] => true
  | [_] => true
  | a :: b :: rest =>
    decide (b ∈ nextStmts g a) && chainNextb g (b :: rest)

/-- Cyclic graph used by the C5 and C10 witnesses: value 1 is defined by
expression 1 whose input is value 1 itself. -/
def gCyc : DefGraph where
  valDef := fun n => if n = 1 then some 1 else none
  exprIns := fun d => if d = 1 then [1] else []
  stmts := [Stmt.v 1, Stmt.e 1]

/-- Acyclic graph used by the C5 witness: value 1 is defined by expression 1
whose input is the undefined value 2. -/
def gAcyc : DefGraph where
  valDef := fun n => if n = 1 then some 1 else none
  exprIns := fun d => if d = 1 then [2] else []
  stmts := [Stmt.v 1, Stmt.e 1, Stmt.v 2]

/-- A rank function witnessing acyclicity of `gAcyc`. -/
def rankAcyc : Stmt → Nat
  | .v 1 => 2
  | .e 1 => 1
  | _ => 0

/-- Graph with a definition cycle (value 1) that is unreachable from the
output value 0; used by the C5 counterexample. -/
def gUnreach : DefGraph where
  valDef := fun n => if n = 1 then some 1 else none
  exprIns := fun d => if d = 1 then [1] else []
  stmts := [Stmt.v 0, Stmt.v 1, Stmt.e 1]

theorem ccRun_zero (g : DefGraph) (fr path visited queue : List Stmt) :
    ccRun g fr 0 path visited queue = none := rfl

theorem ccRun_nil (g : DefGraph) (fr : List Stmt) (fuel : Nat)
    (path visited : List Stmt) :
    ccRun g fr (fuel + 1) path visited [] = some [] := rfl

theorem ccRun_cons (g : DefGraph) (fr : List Stmt) (fuel : Nat)
    (path visited : List Stmt) (val : Stmt) (rest : List Stmt) :
    ccRun g fr (fuel + 1) path visited (val :: rest) =
      if val ∈ fr ∨ val ∈ visited then
        ccRun g fr fuel path visited rest
      else if nextStmts g val = [] then
        ccRun g fr fuel path (insertStmt val visited) rest
      else if val ∈ path then
        ccRun g fr fuel (path.erase val) (insertStmt val visited) rest
      else if (nextStmts g val).any
          (fun s => decide (s ∈ insertStmt val path)) then
        some (insertStmt val path)
      else
        ccRun g fr fuel (insertStmt val path) visited
          ((nextStmts g val).reverse ++ val :: rest) := rfl

theorem irdRun_zero (g : DefGraph) (val : Nat) (queue visited : List Nat) :
    irdRun g val 0 queue visited = none := rfl

theorem irdRun_nil (g : DefGraph) (val : Nat) (fuel : Nat)
    (visited : List Nat) :
    irdRun g val (fuel + 1) [] visited = some false := rfl

theorem irdRun_cons (g : DefGraph) (val : Nat) (fuel : Nat)
    (v : Nat) (rest visited : List Nat) :
    irdRun g val (fuel + 1) (v :: rest) visited =
      match g.valDef v with
      | none => irdRun g val fuel rest (insertNat v visited)
      | some d =>
        if val ∈ g.exprIns d then some true
        else
          irdRun g val fuel
            (rest ++ (g.exprIns d).filter
              (fun i => decide (i ∉ insertNat v visited)))
            (insertNat v visited) := rfl

theorem irdRun_cons_none (g : DefGraph) (val fuel v : Nat)
    (rest visited : List Nat) (hdef : g.valDef v = none) :
    irdRun g val (fuel + 1) (v :: rest) visited =
      irdRun g val fuel rest (insertNat v visited) := by
  rw [irdRun_cons, hdef]

theorem irdRun_cons_found (g : DefGraph) (val fuel v : Nat)
    (rest visited : List Nat) (dd : Nat) (hdef : g.valDef v = some dd)
    (hfound : val ∈ g.exprIns dd) :
    irdRun g val (fuel + 1) (v :: rest) visited = some true := by
  rw [irdRun_cons, hdef]
  show (if val ∈ g.exprIns dd then (some true : Option Bool)
    else irdRun g val fuel
      (rest ++ (g.exprIns dd).filter
        (fun i => decide (i ∉ insertNat v visited)))
      (insertNat v visited)) = some true
  rw [if_pos hfound]

theorem irdRun_cons_notfound (g : DefGraph) (val fuel v : Nat)
    (rest visited : List Nat) (dd : Nat) (hdef : g.valDef v = some dd)
    (hnf : val ∉ g.exprIns dd) :
    irdRun g val (fuel + 1) (v :: rest) visited =
      irdRun g val fuel
        (rest ++ (g.exprIns dd).filter
          (fun i => decide (i ∉ insertNat v visited)))
        (insertNat v visited) := by
  rw [irdRun_cons, hdef]
  show (if val ∈ g.exprIns dd then (some true : Option Bool)
    else irdRun g val fuel
      (rest ++ (g.exprIns dd).filter
        (fun i => decide (i ∉ insertNat v visited)))
      (insertNat v visited)) = _
  rw [if_neg hnf]

/-- Termination potential of a `ccRun` state: statements not yet on the path
or visited, weighted by the fan-out bound, plus the queue length. -/
def ccPot (g : DefGraph) (path visited queue : List Stmt) : Nat :=
  (g.stmts.toFinset \ (path.toFinset ∪ visited.toFinset)).card *
    (ccDeg g + 1) + queue.length

theorem foldl_max_init (f : Stmt → Nat) :
    ∀ (l : List Stmt) (b : Nat), b ≤ l.foldl (fun m s => max m (f s)) b := by
  intro l
  induction l with
  | nil => intro b; exact le_refl b
  | cons a l ih =>
    intro b
    exact le_trans (le_max_left b (f a)) (ih (max b (f a)))

theorem foldl_max_mem (f : Stmt → Nat) :
    ∀ (l : List Stmt) (b : Nat) (x : Stmt), x ∈ l →
      f x ≤ l.foldl (fun m s => max m (f s)) b := by
  intro l
  induction l with
  | nil => intro b x hx; exact absurd hx (List.not_mem_nil x)
  | cons a l ih =>
    intro b x hx
    rw [List.mem_cons] at hx
    rcases hx with rfl | hx
    · exact le_trans (le_max_right b (f x)) (foldl_max_init f l (max b (f x)))
    · exact ih (max b (f a)) x hx

theorem ccDeg_ge (g : DefGraph) (s : Stmt) (hs : s ∈ g.stmts) :
    (nextStmts g s).length ≤ ccDeg g :=
  foldl_max_mem (fun s => (nextStmts g s).length) g.stmts 0 s hs

theorem wfDG_next (g : DefGraph) (hwf : wfDG g = true) (s : Stmt)
    (hs : s ∈ g.stmts) (t : Stmt) (ht : t ∈ nextStmts g s) :
    t ∈ g.stmts := by
  rw [wfDG, List.all_eq_true] at hwf
  have h2 := hwf s hs
  rw [List.all_eq_true] at h2
  simpa using h2 t ht

theorem mem_insertStmt (x y : Stmt) (l : List Stmt) :
    y ∈ insertStmt x l ↔ y = x ∨ y ∈ l := by
  unfold insertStmt
  split
  · rename_i h
    constructor
    · exact Or.inr
    · rintro (rfl | hy)
      · exact h
      · exact hy
  · rw [List.mem_cons]

theorem insertStmt_toFinset (x : Stmt) (l : List Stmt) :
    (insertStmt x l).toFinset = insert x l.toFinset := by
  unfold insertStmt
  split
  · rename_i h
    exact (Finset.insert_eq_self.mpr (List.mem_toFinset.mpr h)).symm
  · exact List.toFinset_cons

theorem insertStmt_of_not_mem (x : Stmt) (l : List Stmt) (h : x ∉ l) :
    insertStmt x l = x :: l := by
  unfold insertStmt
  rw [if_neg h]

theorem ccRun_isSome (g : DefGraph) (fr : List Stmt) (hwf : wfDG g = true) :
    ∀ (fuel : Nat) (path visited queue : List Stmt),
      (∀ x ∈ queue, x ∈ g.stmts) →
      ccPot g path visited queue < fuel →
      (ccRun g fr fuel path visited queue).isSome = true := by
  intro fuel
  induction fuel with
  | zero => intro path visited queue hq hpot; exact absurd hpot (Nat.not_lt_zero _)
  | succ fuel ih =>
    intro path visited queue hq hpot
    match queue with
    | [] => rw [ccRun_nil]; rfl
    | val :: rest =>
      have hval : val ∈ g.stmts := hq val (List.mem_cons_self val rest)
      have hrest : ∀ x ∈ rest, x ∈ g.stmts :=
        fun x hx => hq x (List.mem_cons_of_mem val hx)
      have hlen : (val :: rest).length = rest.length + 1 := rfl
      rw [ccRun_cons]
      by_cases h1 : val ∈ fr ∨ val ∈ visited
      · rw [if_pos h1]
        apply ih path visited rest hrest
        unfold ccPot at hpot ⊢
        rw [hlen] at hpot
        omega
      · rw [if_neg h1]
        rw [not_or] at h1
        by_cases h2 : nextStmts g val = []
        · rw [if_pos h2]
          apply ih path (insertStmt val visited) rest hrest
          have hsub : g.stmts.toFinset \
              (path.toFinset ∪ (insertStmt val visited).toFinset) ⊆
              g.stmts.toFinset \ (path.toFinset ∪ visited.toFinset) := by
            apply Finset.sdiff_subset_sdiff (le_refl _)
            rw [insertStmt_toFinset]
            intro x hx
            rw [Finset.mem_union] at hx ⊢
            rcases hx with hx | hx
            · exact Or.inl hx
            · exact Or.inr (Finset.mem_insert_of_mem hx)
          have hcard := Finset.card_le_card hsub
          unfold ccPot at hpot ⊢
          rw [hlen] at hpot
          have := Nat.mul_le_mul_right (ccDeg g + 1) hcard
          omega
        · rw [if_neg h2]
          by_cases h3 : val ∈ path
          · rw [if_pos h3]
            apply ih (path.erase val) (insertStmt val visited) rest hrest
            have hsub : g.stmts.toFinset \
                ((path.erase val).toFinset ∪ (insertStmt val visited).toFinset) ⊆
                g.stmts.toFinset \ (path.toFinset ∪ visited.toFinset) := by
              apply Finset.sdiff_subset_sdiff (le_refl _)
              intro x hx
              rw [Finset.mem_union] at hx ⊢
              rw [insertStmt_toFinset]
              rcases hx with hx | hx
              · rw [List.mem_toFinset] at hx
                by_cases hxv : x = val
                · exact Or.inr (by
                    rw [hxv]
                    exact Finset.mem_insert_self val visited.toFinset)
                · exact Or.inl (List.mem_toFinset.mpr
                    ((List.mem_erase_of_ne hxv).mpr hx))
              · exact Or.inr (Finset.mem_insert_of_mem hx)
            have hcard := Finset.card_le_card hsub
            unfold ccPot at hpot ⊢
            rw [hlen] at hpot
            have := Nat.mul_le_mul_right (ccDeg g + 1) hcard
            omega
          · rw [if_neg h3]
            by_cases h4 : (nextStmts g val).any
                (fun s => decide (s ∈ insertStmt val path)) = true
            · rw [if_pos h4]; rfl
            · rw [if_neg h4]
              have hvv : val ∉ visited := h1.2
              apply ih (insertStmt val path) visited
                ((nextStmts g val).reverse ++ val :: rest)
              · intro x hx
                rw [List.mem_append] at hx
                rcases hx with hx | hx
                · exact wfDG_next g hwf val hval x (List.mem_reverse.mp hx)
                · exact hq x hx
              · have hmem : val ∈ g.stmts.toFinset \
                    (path.toFinset ∪ visited.toFinset) := by
                  rw [Finset.mem_sdiff, Finset.mem_union, List.mem_toFinset]
                  exact ⟨hval,
                    fun hc => hc.elim (fun hc2 => h3 (List.mem_toFinset.mp hc2))
                      (fun hc2 => hvv (List.mem_toFinset.mp hc2))⟩
                have heq : g.stmts.toFinset \
                    ((insertStmt val path).toFinset ∪ visited.toFinset) =
                    (g.stmts.toFinset \
                      (path.toFinset ∪ visited.toFinset)).erase val := by
                  rw [insertStmt_toFinset]
                  ext x
                  rw [Finset.mem_erase, Finset.mem_sdiff, Finset.mem_sdiff,
                    Finset.mem_union, Finset.mem_union, Finset.mem_insert]
                  constructor
                  · rintro ⟨hx, hxn⟩
                    exact ⟨fun hxv => hxn (Or.inl (Or.inl hxv)),
                      hx, fun hor => hxn (hor.elim
                        (fun a => Or.inl (Or.inr a)) Or.inr)⟩
                  · rintro ⟨hxv, hx, hxn⟩
                    refine ⟨hx, ?_⟩
                    rintro ((rfl | hp) | hv)
                    · exact hxv rfl
                    · exact hxn (Or.inl hp)
                    · exact hxn (Or.inr hv)
                have hcard : (g.stmts.toFinset \
                    ((insertStmt val path).toFinset ∪ visited.toFinset)).card =
                    (g.stmts.toFinset \
                      (path.toFinset ∪ visited.toFinset)).card - 1 := by
                  rw [heq, Finset.card_erase_of_mem hmem]
                have hpos : 0 < (g.stmts.toFinset \
                    (path.toFinset ∪ visited.toFinset)).card :=
                  Finset.card_pos.mpr ⟨val, hmem⟩
                have hns : (nextStmts g val).length ≤ ccDeg g :=
                  ccDeg_ge g val hval
                unfold ccPot at hpot ⊢
                rw [hlen] at hpot
                rw [List.length_append, List.length_reverse, hlen, hcard]
                have hsp : (g.stmts.toFinset \
                    (path.toFinset ∪ visited.toFinset)).card - 1 + 1 =
                    (g.stmts.toFinset \
                      (path.toFinset ∪ visited.toFinset)).card := by omega
                have key : ((g.stmts.toFinset \
                    (path.toFinset ∪ visited.toFinset)).card - 1) *
                    (ccDeg g + 1) + (ccDeg g + 1) =
                    (g.stmts.toFinset \
                      (path.toFinset ∪ visited.toFinset)).card *
                    (ccDeg g + 1) := by
                  calc ((g.stmts.toFinset \
                      (path.toFinset ∪ visited.toFinset)).card - 1) *
                      (ccDeg g + 1) + (ccDeg g + 1)
                      = ((g.stmts.toFinset \
                        (path.toFinset ∪ visited.toFinset)).card - 1 + 1) *
                        (ccDeg g + 1) := by ring
                    _ = (g.stmts.toFinset \
                        (path.toFinset ∪ visited.toFinset)).card *
                        (ccDeg g + 1) := by rw [hsp]
                omega

/-- Queue-decomposition invariant of the cycle detector: the queue splits
into pending-successor regions headed by the path markers (newest first).
For the marker `p` of each level, region `T` holds pending next-statements
of `p`; every next-statement of `p` is pending, visited, on the boundary,
or the marker one level up (`ab`); pending statements are off the path; the
marker one level up is a next-statement of `p`; and `p` is a non-leaf
statement off the boundary, visited set, and rest of the path. -/
inductive QD (g : DefGraph) (fr visited : List Stmt) :
    Option Stmt → List Stmt → List Stmt → Prop where
  | nil (ab : Option Stmt) (queue : List Stmt) : QD g fr visited ab [] queue
  | cons (ab : Option Stmt) (p : Stmt) (ps T q2 : List Stmt)
      (hT : ∀ x ∈ T, x ∈ nextStmts g p)
      (hcov : ∀ x ∈ nextStmts g p,
        x ∈ T ∨ x ∈ visited ∨ x ∈ fr ∨ ab = some x)
      (hTp : ∀ x ∈ T, x ∉ p :: ps)
      (hab : ∀ c, ab = some c → c ∈ nextStmts g p)
      (hne : nextStmts g p ≠ [])
      (hpfr : p ∉ fr)
      (hpv : p ∉ visited)
      (hps : p ∉ ps)
      (hrec : QD g fr visited (some p) ps q2) :
      QD g fr visited ab (p :: ps) (T ++ p :: q2)

theorem QD_queue_ne (g : DefGraph) (fr visited : List Stmt)
    (ab : Option Stmt) (path queue : List Stmt)
    (h : QD g fr visited ab path queue) (hpne : path ≠ []) : queue ≠ [] := by
  cases h with
  | nil a0 q0 => exact absurd rfl hpne
  | cons a0 p ps T q2 hT hcov hTp hab hne hpfr hpv hps hrec =>
    intro hc
    exact absurd (List.append_eq_nil.mp hc).2 (List.cons_ne_nil p q2)

theorem QD_mono (g : DefGraph) (fr : List Stmt) :
    ∀ {visited : List Stmt} {ab : Option Stmt} {path queue : List Stmt},
      QD g fr visited ab path queue →
      ∀ visited' : List Stmt, (∀ x ∈ visited, x ∈ visited') →
      (∀ x, x ∈ visited' → x ∉ visited → x ∉ path) →
      QD g fr visited' ab path queue := by
  intro visited ab path queue h
  induction h with
  | nil a0 q0 => intro visited' hsub hnp; exact QD.nil a0 q0
  | cons a0 p ps T q2 hT hcov hTp hab hne hpfr hpv hps hrec ih =>
    intro visited' hsub hnp
    refine QD.cons a0 p ps T q2 hT ?_ hTp hab hne hpfr ?_ hps ?_
    · intro x hx
      rcases hcov x hx with hx2 | hx2 | hx2 | hx2
      · exact Or.inl hx2
      · exact Or.inr (Or.inl (hsub x hx2))
      · exact Or.inr (Or.inr (Or.inl hx2))
      · exact Or.inr (Or.inr (Or.inr hx2))
    · intro hcontra
      by_cases hpvis : p ∈ visited
      · exact hpv hpvis
      · exact hnp p hcontra hpvis (List.mem_cons_self p ps)
    · exact ih visited' hsub
        (fun x hx1 hx2 hx3 => hnp x hx1 hx2 (List.mem_cons_of_mem p hx3))

theorem QD_retarget (g : DefGraph) (fr : List Stmt)
    {visited : List Stmt} {c : Stmt} {ps q : List Stmt}
    (h : QD g fr visited (some c) ps q)
    (visited' : List Stmt) (hc : c ∈ visited')
    (hsub : ∀ x ∈ visited, x ∈ visited')
    (hnp : ∀ x, x ∈ visited' → x ∉ visited → x ∉ ps) :
    QD g fr visited' none ps q := by
  cases h with
  | nil a0 q0 => exact QD.nil none q
  | cons a0 p ps2 T q2 hT hcov hTp hab hne hpfr hpv hps hrec =>
    refine QD.cons none p ps2 T q2 hT ?_ hTp ?_ hne hpfr ?_ hps ?_
    · intro x hx
      rcases hcov x hx with hx2 | hx2 | hx2 | hx2
      · exact Or.inl hx2
      · exact Or.inr (Or.inl (hsub x hx2))
      · exact Or.inr (Or.inr (Or.inl hx2))
      · rw [Option.some_inj] at hx2
        exact Or.inr (Or.inl (hx2 ▸ hc))
    · intro c2 hc2
      exact absurd hc2 (by simp)
    · intro hcontra
      by_cases hpvis : p ∈ visited
      · exact hpv hpvis
      · exact hnp p hcontra hpvis (List.mem_cons_self p ps2)
    · exact QD_mono g fr hrec visited' hsub
        (fun x hx1 hx2 hx3 => hnp x hx1 hx2 (List.mem_cons_of_mem p hx3))

theorem QD_step_skip (g : DefGraph) (fr : List Stmt)
    {visited path queue : List Stmt} {val : Stmt} {rest : List Stmt}
    (h : QD g fr visited none path queue) (hq : val :: rest = queue)
    (hval : val ∈ fr ∨ val ∈ visited) :
    QD g fr visited none path rest := by
  cases h with
  | nil a0 q0 => exact QD.nil none rest
  | cons a0 p ps T q2 hT hcov hTp hab hne hpfr hpv hps hrec =>
    cases T with
    | nil =>
      rw [List.nil_append] at hq
      injection hq with h1 h2
      subst h1
      subst h2
      rcases hval with hval | hval
      · exact absurd hval hpfr
      · exact absurd hval hpv
    | cons t T2 =>
      rw [List.cons_append] at hq
      injection hq with h1 h2
      subst h1
      subst h2
      refine QD.cons none p ps T2 q2
        (fun x hx => hT x (List.mem_cons_of_mem val hx)) ?_
        (fun x hx => hTp x (List.mem_cons_of_mem val hx))
        hab hne hpfr hpv hps hrec
      intro x hx
      rcases hcov x hx with hx2 | hx2 | hx2 | hx2
      · rw [List.mem_cons] at hx2
        rcases hx2 with rfl | hx2
        · rcases hval with hval | hval
          · exact Or.inr (Or.inr (Or.inl hval))
          · exact Or.inr (Or.inl hval)
        · exact Or.inl hx2
      · exact Or.inr (Or.inl hx2)
      · exact Or.inr (Or.inr (Or.inl hx2))
      · exact Or.inr (Or.inr (Or.inr hx2))

theorem QD_step_leaf (g : DefGraph) (fr : List Stmt)
    {visited path queue : List Stmt} {val : Stmt} {rest : List Stmt}
    (h : QD g fr visited none path queue) (hq : val :: rest = queue)
    (hvv : val ∉ visited) (hleaf : nextStmts g val = []) :
    QD g fr (insertStmt val visited) none path rest := by
  cases h with
  | nil a0 q0 => exact QD.nil none rest
  | cons a0 p ps T q2 hT hcov hTp hab hne hpfr hpv hps hrec =>
    cases T with
    | nil =>
      rw [List.nil_append] at hq
      injection hq with h1 h2
      subst h1
      exact absurd hleaf hne
    | cons t T2 =>
      rw [List.cons_append] at hq
      injection hq with h1 h2
      subst h1
      subst h2
      have htp : val ≠ p := by
        intro hc
        exact hTp val (List.mem_cons_self val T2) (hc ▸ List.mem_cons_self p ps)
      refine QD.cons none p ps T2 q2
        (fun x hx => hT x (List.mem_cons_of_mem val hx)) ?_
        (fun x hx => hTp x (List.mem_cons_of_mem val hx))
        hab hne hpfr ?_ hps ?_
      · intro x hx
        rcases hcov x hx with hx2 | hx2 | hx2 | hx2
        · rw [List.mem_cons] at hx2
          rcases hx2 with rfl | hx2
          · exact Or.inr (Or.inl ((mem_insertStmt x x visited).mpr (Or.inl rfl)))
          · exact Or.inl hx2
        · exact Or.inr (Or.inl ((mem_insertStmt val x visited).mpr (Or.inr hx2)))
        · exact Or.inr (Or.inr (Or.inl hx2))
        · exact Or.inr (Or.inr (Or.inr hx2))
      · intro hcontra
        rcases (mem_insertStmt val p visited).mp hcontra with hc | hc
        · exact htp hc.symm
        · exact hpv hc
      · refine QD_mono g fr hrec (insertStmt val visited)
          (fun x hx => (mem_insertStmt val x visited).mpr (Or.inr hx)) ?_
        intro x hx1 hx2
        rcases (mem_insertStmt val x visited).mp hx1 with rfl | hc
        · intro hcontra
          exact hTp x (List.mem_cons_self x T2) (List.mem_cons_of_mem p hcontra)
        · exact absurd hc hx2

theorem QD_step_cleanup (g : DefGraph) (fr : List Stmt)
    {visited path queue : List Stmt} {val : Stmt} {rest : List Stmt}
    (h : QD g fr visited none path queue) (hq : val :: rest = queue)
    (hvp : val ∈ path) :
    ∃ ps, path = val :: ps ∧
      (∀ x ∈ nextStmts g val, x ∈ visited ∨ x ∈ fr) ∧
      QD g fr (insertStmt val visited) none ps rest := by
  cases h with
  | nil a0 q0 => exact absurd hvp (List.not_mem_nil val)
  | cons a0 p ps T q2 hT hcov hTp hab hne hpfr hpv hps hrec =>
    cases T with
    | nil =>
      rw [List.nil_append] at hq
      injection hq with h1 h2
      subst h1
      subst h2
      refine ⟨ps, rfl, ?_, ?_⟩
      · intro x hx
        rcases hcov x hx with hx2 | hx2 | hx2 | hx2
        · exact absurd hx2 (List.not_mem_nil x)
        · exact Or.inl hx2
        · exact Or.inr hx2
        · exact absurd hx2 (by simp)
      · refine QD_retarget g fr hrec (insertStmt val visited)
          ((mem_insertStmt val val visited).mpr (Or.inl rfl))
          (fun x hx => (mem_insertStmt val x visited).mpr (Or.inr hx)) ?_
        intro x hx1 hx2
        rcases (mem_insertStmt val x visited).mp hx1 with rfl | hc
        · exact hps
        · exact absurd hc hx2
    | cons t T2 =>
      rw [List.cons_append] at hq
      injection hq with h1 h2
      subst h1
      exact absurd hvp (hTp val (List.mem_cons_self val T2))

theorem QD_step_expand (g : DefGraph) (fr : List Stmt)
    {visited path queue : List Stmt} {val : Stmt} {rest : List Stmt}
    (h : QD g fr visited none path queue) (hq : val :: rest = queue)
    (hvp : val ∉ path) (hvf : val ∉ fr) (hvv : val ∉ visited)
    (hvne : nextStmts g val ≠ [])
    (hnc : ∀ x ∈ nextStmts g val, x ∉ insertStmt val path) :
    QD g fr visited none (insertStmt val path)
      ((nextStmts g val).reverse ++ val :: rest) := by
  rw [insertStmt_of_not_mem val path hvp] at hnc ⊢
  cases h with
  | nil a0 q0 =>
    exact QD.cons none val [] (nextStmts g val).reverse rest
      (fun x hx => List.mem_reverse.mp hx)
      (fun x hx => Or.inl (List.mem_reverse.mpr hx))
      (fun x hx => hnc x (List.mem_reverse.mp hx))
      (fun c hc => absurd hc (by simp))
      hvne hvf hvv (List.not_mem_nil val) (QD.nil (some val) rest)
  | cons a0 p ps T q2 hT hcov hTp hab hne hpfr hpv hps hrec =>
    cases T with
    | nil =>
      rw [List.nil_append] at hq
      injection hq with h1 h2
      subst h1
      exact absurd (List.mem_cons_self val ps) hvp
    | cons t T2 =>
      rw [List.cons_append] at hq
      injection hq with h1 h2
      subst h1
      subst h2
      have hrec2 : QD g fr visited (some val) (p :: ps) (T2 ++ p :: q2) := by
        refine QD.cons (some val) p ps T2 q2
          (fun x hx => hT x (List.mem_cons_of_mem val hx)) ?_
          (fun x hx => hTp x (List.mem_cons_of_mem val hx)) ?_
          hne hpfr hpv hps hrec
        · intro x hx
          rcases hcov x hx with hx2 | hx2 | hx2 | hx2
          · rw [List.mem_cons] at hx2
            rcases hx2 with rfl | hx2
            · exact Or.inr (Or.inr (Or.inr rfl))
            · exact Or.inl hx2
          · exact Or.inr (Or.inl hx2)
          · exact Or.inr (Or.inr (Or.inl hx2))
          · exact absurd hx2 (by simp)
        · intro c hc
          rw [Option.some_inj] at hc
          exact hc ▸ hT val (List.mem_cons_self val T2)
      exact QD.cons none val (p :: ps) (nextStmts g val).reverse
        (T2 ++ p :: q2)
        (fun x hx => List.mem_reverse.mp hx)
        (fun x hx => Or.inl (List.mem_reverse.mpr hx))
        (fun x hx => hnc x (List.mem_reverse.mp hx))
        (fun c hc => absurd hc (by simp))
        hvne hvf hvv hvp hrec2

/-- Head of a statement list with default. -/
def headS : List Stmt → Stmt
  | [] => Stmt.v 0
  | a :: _ => a

/-- Last element of a statement list with default. -/
def lastS : List Stmt → Stmt
  | [] => Stmt.v 0
  | [a] => a
  | _ :: b :: rest => lastS (b :: rest)

theorem headS_mem (l : List Stmt) (h : l ≠ []) : headS l ∈ l := by
  cases l with
  | nil => exact absurd rfl h
  | cons a l2 => exact List.mem_cons_self a l2

theorem lastS_append (l1 l2 : List Stmt) (h : l2 ≠ []) :
    lastS (l1 ++ l2) = lastS l2 := by
  induction l1 with
  | nil => rfl
  | cons a l1 ih =>
    have hM : l1 ++ l2 ≠ [] := fun hc => h (List.append_eq_nil.mp hc).2
    rw [List.cons_append]
    cases hM2 : l1 ++ l2 with
    | nil => exact absurd hM2 hM
    | cons b M2 =>
      calc lastS (a :: b :: M2) = lastS (b :: M2) := rfl
        _ = lastS l2 := by rw [← hM2]; exact ih

theorem chainNextb_cons_cons (g : DefGraph) (a b : Stmt) (l : List Stmt) :
    chainNextb g (a :: b :: l) = true ↔
      b ∈ nextStmts g a ∧ chainNextb g (b :: l) = true := by
  simp [chainNextb]

theorem chain_step (g : DefGraph) :
    ∀ (l : List Stmt), chainNextb g l = true → ∀ x ∈ l,
      x = lastS l ∨ ∃ y, y ∈ nextStmts g x ∧ y ∈ l := by
  intro l
  induction l with
  | nil => intro hch x hx; exact absurd hx (List.not_mem_nil x)
  | cons a l ih =>
    intro hch x hx
    cases l with
    | nil =>
      rw [List.mem_singleton] at hx
      exact Or.inl (hx ▸ rfl)
    | cons b l2 =>
      rw [chainNextb_cons_cons] at hch
      rw [List.mem_cons] at hx
      rcases hx with rfl | hx
      · exact Or.inr ⟨b, hch.1,
          List.mem_cons_of_mem x (List.mem_cons_self b l2)⟩
      · rcases ih hch.2 x hx with heq | ⟨y, hy1, hy2⟩
        · exact Or.inl heq
        · exact Or.inr ⟨y, hy1, List.mem_cons_of_mem a hy2⟩

theorem chain_closed (g : DefGraph) (pre cyc : List Stmt) (hcne : cyc ≠ [])
    (hch : chainNextb g (pre ++ cyc) = true)
    (hwrap : headS cyc ∈ nextStmts g (lastS cyc)) :
    ∀ x ∈ pre ++ cyc, ∃ y, y ∈ nextStmts g x ∧ y ∈ pre ++ cyc := by
  intro x hx
  rcases chain_step g (pre ++ cyc) hch x hx with heq | h
  · refine ⟨headS cyc, ?_, ?_⟩
    · rw [heq, lastS_append pre cyc hcne]
      exact hwrap
    · exact List.mem_append_right pre (headS_mem cyc hcne)
  · exact h

theorem QD_front_info (g : DefGraph) (fr : List Stmt)
    {visited path queue : List Stmt} {val : Stmt} {rest : List Stmt}
    (h : QD g fr visited none path queue) (hq : val :: rest = queue)
    (hvp : val ∉ path) (p : Stmt) (ps : List Stmt) (hpeq : path = p :: ps) :
    val ∈ nextStmts g p ∧ ∃ q2, QD g fr visited (some p) ps q2 := by
  subst hpeq
  cases h with
  | cons a0 p2 ps2 T q2 hT hcov hTp hab hne hpfr hpv hps hrec =>
    cases T with
    | nil =>
      rw [List.nil_append] at hq
      injection hq with h1 h2
      subst h1
      exact absurd (List.mem_cons_self val ps) hvp
    | cons t T2 =>
      rw [List.cons_append] at hq
      injection hq with h1 h2
      subst h1
      exact ⟨hT val (List.mem_cons_self val T2), q2, hrec⟩

theorem QD_chain_rank (g : DefGraph) (fr : List Stmt) (rank : Stmt → Nat)
    (hrank : ∀ s ∈ g.stmts, ∀ t ∈ nextStmts g s, rank t < rank s) :
    ∀ {visited : List Stmt} {ab : Option Stmt} {ps q : List Stmt},
      QD g fr visited ab ps q → (∀ x ∈ ps, x ∈ g.stmts) →
      ∀ c, ab = some c → ∀ y ∈ ps, rank c < rank y := by
  intro visited ab ps q h
  induction h with
  | nil a0 q0 =>
    intro hS c hc y hy
    exact absurd hy (List.not_mem_nil y)
  | cons a0 p ps T q2 hT hcov hTp hab hne hpfr hpv hps hrec ih =>
    intro hS c hc y hy
    have hcp : rank c < rank p :=
      hrank p (hS p (List.mem_cons_self p ps)) c (hab c hc)
    rw [List.mem_cons] at hy
    rcases hy with rfl | hy
    · exact hcp
    · exact lt_trans hcp
        (ih (fun x hx => hS x (List.mem_cons_of_mem p hx)) p rfl y hy)

theorem ccRun_acyclic (g : DefGraph) (fr : List Stmt) (hwf : wfDG g = true)
    (rank : Stmt → Nat)
    (hrank : ∀ s ∈ g.stmts, ∀ t ∈ nextStmts g s, rank t < rank s) :
    ∀ (fuel : Nat) (path visited queue : List Stmt),
      QD g fr visited none path queue →
      (∀ x ∈ queue, x ∈ g.stmts) → (∀ x ∈ path, x ∈ g.stmts) →
      ∀ r, ccRun g fr fuel path visited queue = some r → r = [] := by
  intro fuel
  induction fuel with
  | zero =>
    intro path visited queue hqd hq hp r hrun
    rw [ccRun_zero] at hrun
    exact absurd hrun (by simp)
  | succ fuel ih =>
    intro path visited queue hqd hq hp r hrun
    match queue, hq, hqd, hrun with
    | [], hq, hqd, hrun =>
      rw [ccRun_nil] at hrun
      exact (Option.some_inj.mp hrun).symm
    | val :: rest, hq, hqd, hrun =>
      have hrest : ∀ x ∈ rest, x ∈ g.stmts :=
        fun x hx => hq x (List.mem_cons_of_mem val hx)
      have hvalS : val ∈ g.stmts := hq val (List.mem_cons_self val rest)
      rw [ccRun_cons] at hrun
      by_cases h1 : val ∈ fr ∨ val ∈ visited
      · rw [if_pos h1] at hrun
        exact ih path visited rest (QD_step_skip g fr hqd rfl h1)
          hrest hp r hrun
      · rw [if_neg h1] at hrun
        rw [not_or] at h1
        by_cases h2 : nextStmts g val = []
        · rw [if_pos h2] at hrun
          exact ih path (insertStmt val visited) rest
            (QD_step_leaf g fr hqd rfl h1.2 h2) hrest hp r hrun
        · rw [if_neg h2] at hrun
          by_cases h3 : val ∈ path
          · rw [if_pos h3] at hrun
            obtain ⟨ps, hpeq, hcv, hqd2⟩ := QD_step_cleanup g fr hqd rfl h3
            rw [hpeq, List.erase_cons_head] at hrun
            refine ih ps (insertStmt val visited) rest hqd2 hrest ?_ r hrun
            intro x hx
            exact hp x (hpeq ▸ List.mem_cons_of_mem val hx)
          · rw [if_neg h3] at hrun
            by_cases h4 : (nextStmts g val).any
                (fun s => decide (s ∈ insertStmt val path)) = true
            · exfalso
              rw [List.any_eq_true] at h4
              obtain ⟨x, hx1, hx2⟩ := h4
              have hx3 : x ∈ insertStmt val path := of_decide_eq_true hx2
              have hxlt : rank x < rank val := hrank val hvalS x hx1
              rw [mem_insertStmt] at hx3
              rcases hx3 with rfl | hx3
              · exact lt_irrefl (rank x) hxlt
              · match path, h3, hp, hx3, hqd with
                | p :: ps, h3, hp, hx3, hqd =>
                  obtain ⟨hvnext, q2, hrec⟩ :=
                    QD_front_info g fr hqd rfl h3 p ps rfl
                  have hpS : p ∈ g.stmts := hp p (List.mem_cons_self p ps)
                  have hvplt : rank val < rank p := hrank p hpS val hvnext
                  rw [List.mem_cons] at hx3
                  rcases hx3 with rfl | hx3
                  · omega
                  · have hps_lt := QD_chain_rank g fr rank hrank hrec
                      (fun y hy => hp y (List.mem_cons_of_mem p hy)) p rfl
                      x hx3
                    omega
            · rw [if_neg h4] at hrun
              have hnc : ∀ x ∈ nextStmts g val, x ∉ insertStmt val path := by
                intro x hx hcontra
                exact h4 (List.any_eq_true.mpr
                  ⟨x, hx, decide_eq_true hcontra⟩)
              refine ih (insertStmt val path) visited
                ((nextStmts g val).reverse ++ val :: rest)
                (QD_step_expand g fr hqd rfl h3 h1.1 h1.2 h2 hnc) ?_ ?_ r hrun
              · intro x hx
                rw [List.mem_append] at hx
                rcases hx with hx | hx
                · exact wfDG_next g hwf val hvalS x (List.mem_reverse.mp hx)
                · exact hq x hx
              · intro x hx
                rw [mem_insertStmt] at hx
                rcases hx with rfl | hx
                · exact hvalS
                · exact hp x hx

theorem ccRun_finds_cycle (g : DefGraph) (fr : List Stmt)
    (pre cyc : List Stmt) (hcne : cyc ≠ [])
    (hch : chainNextb g (pre ++ cyc) = true)
    (hwrap : headS cyc ∈ nextStmts g (lastS cyc))
    (hfr : ∀ y ∈ pre ++ cyc, y ∉ fr) :
    ∀ (fuel : Nat) (path visited queue : List Stmt),
      QD g fr visited none path queue →
      (headS (pre ++ cyc) ∈ queue ∨ headS (pre ++ cyc) ∈ path) →
      (∀ y ∈ pre ++ cyc, y ∉ visited) →
      ccRun g fr fuel path visited queue ≠ some [] := by
  have hclosed := chain_closed g pre cyc hcne hch hwrap
  have hLne : pre ++ cyc ≠ [] := fun hc => hcne (List.append_eq_nil.mp hc).2
  have hhead : headS (pre ++ cyc) ∈ pre ++ cyc := headS_mem _ hLne
  intro fuel
  induction fuel with
  | zero =>
    intro path visited queue hqd hh hv
    rw [ccRun_zero]
    simp
  | succ fuel ih =>
    intro path visited queue hqd hh hv
    match queue, hqd, hh with
    | [], hqd, hh =>
      exfalso
      cases hpath : path with
      | nil =>
        rw [hpath] at hh
        rcases hh with hh | hh
        · exact absurd hh (List.not_mem_nil _)
        · exact absurd hh (List.not_mem_nil _)
      | cons p ps =>
        rw [hpath] at hqd
        exact absurd rfl
          (QD_queue_ne g fr visited none (p :: ps) [] hqd
            (List.cons_ne_nil p ps))
    | val :: rest, hqd, hh =>
      rw [ccRun_cons]
      by_cases h1 : val ∈ fr ∨ val ∈ visited
      · rw [if_pos h1]
        have hne_head : headS (pre ++ cyc) ≠ val := by
          intro hc
          rcases h1 with h1 | h1
          · exact hfr _ hhead (hc ▸ h1)
          · exact hv _ hhead (hc ▸ h1)
        refine ih path visited rest (QD_step_skip g fr hqd rfl h1) ?_ hv
        rcases hh with hh | hh
        · rcases List.mem_cons.mp hh with hc | hc
          · exact absurd hc hne_head
          · exact Or.inl hc
        · exact Or.inr hh
      · rw [if_neg h1]
        rw [not_or] at h1
        by_cases h2 : nextStmts g val = []
        · rw [if_pos h2]
          have hvnotchain : val ∉ pre ++ cyc := by
            intro hc
            obtain ⟨y, hy1, hy2⟩ := hclosed val hc
            rw [h2] at hy1
            exact absurd hy1 (List.not_mem_nil y)
          refine ih path (insertStmt val visited) rest
            (QD_step_leaf g fr hqd rfl h1.2 h2) ?_ ?_
          · rcases hh with hh | hh
            · rcases List.mem_cons.mp hh with hc | hc
              · exact absurd (hc ▸ hhead) hvnotchain
              · exact Or.inl hc
            · exact Or.inr hh
          · intro y hy hcontra
            rw [mem_insertStmt] at hcontra
            rcases hcontra with rfl | hcontra
            · exact hvnotchain hy
            · exact hv y hy hcontra
        · rw [if_neg h2]
          by_cases h3 : val ∈ path
          · rw [if_pos h3]
            obtain ⟨ps, hpeq, hcv, hqd2⟩ := QD_step_cleanup g fr hqd rfl h3
            have hvnotchain : val ∉ pre ++ cyc := by
              intro hc
              obtain ⟨y, hy1, hy2⟩ := hclosed val hc
              rcases hcv y hy1 with hy3 | hy3
              · exact hv y hy2 hy3
              · exact hfr y hy2 hy3
            rw [hpeq, List.erase_cons_head]
            refine ih ps (insertStmt val visited) rest hqd2 ?_ ?_
            · rcases hh with hh | hh
              · rcases List.mem_cons.mp hh with hc | hc
                · exact absurd (hc ▸ hhead) hvnotchain
                · exact Or.inl hc
              · rw [hpeq, List.mem_cons] at hh
                rcases hh with hc | hc
                · exact absurd (hc ▸ hhead) hvnotchain
                · exact Or.inr hc
            · intro y hy hcontra
              rw [mem_insertStmt] at hcontra
              rcases hcontra with rfl | hcontra
              · exact hvnotchain hy
              · exact hv y hy hcontra
          · rw [if_neg h3]
            by_cases h4 : (nextStmts g val).any
                (fun s => decide (s ∈ insertStmt val path)) = true
            · rw [if_pos h4]
              intro hc
              rw [Option.some_inj] at hc
              rw [insertStmt_of_not_mem val path h3] at hc
              exact List.cons_ne_nil val path hc
            · rw [if_neg h4]
              have hnc : ∀ x ∈ nextStmts g val, x ∉ insertStmt val path := by
                intro x hx hcontra
                exact h4 (List.any_eq_true.mpr
                  ⟨x, hx, decide_eq_true hcontra⟩)
              refine ih (insertStmt val path) visited
                ((nextStmts g val).reverse ++ val :: rest)
                (QD_step_expand g fr hqd rfl h3 h1.1 h1.2 h2 hnc) ?_ hv
              rcases hh with hh | hh
              · exact Or.inl (List.mem_append_right _ hh)
              · exact Or.inr ((mem_insertStmt val _ path).mpr (Or.inr hh))

theorem ccPot_init (g : DefGraph) (tos : List Stmt) :
    ccPot g [] [] tos < ccFuel g tos := by
  unfold ccPot ccFuel
  have h1 : (g.stmts.toFinset \
      (([] : List Stmt).toFinset ∪ ([] : List Stmt).toFinset)).card ≤
      g.stmts.length :=
    le_trans (Finset.card_le_card (Finset.sdiff_subset))
      g.stmts.toFinset_card_le
  have h2 := Nat.mul_le_mul_right (ccDeg g + 1) h1
  omega

/-- Count of value ids not yet visited by `irdRun`. -/
def ucount (g : DefGraph) (visited : List Nat) : Nat :=
  ((valsOf g).toFinset \ visited.toFinset).card

/-- Index of the first queue element not yet visited (queue length if all
are visited). -/
def firstUnvis (queue visited : List Nat) : Nat :=
  queue.findIdx (fun v => decide (v ∉ visited))

theorem mem_valsOf (g : DefGraph) (n : Nat) :
    n ∈ valsOf g ↔ Stmt.v n ∈ g.stmts := by
  unfold valsOf
  rw [List.mem_filterMap]
  constructor
  · rintro ⟨s, hs, hmatch⟩
    cases s with
    | v m =>
      have hm : m = n := by
        injection hmatch
      exact hm ▸ hs
    | e m => exact absurd hmatch (by simp)
  · intro h
    exact ⟨Stmt.v n, h, rfl⟩

theorem mem_insertNat (x y : Nat) (l : List Nat) :
    y ∈ insertNat x l ↔ y = x ∨ y ∈ l := by
  unfold insertNat
  split
  · rename_i h
    constructor
    · exact Or.inr
    · rintro (rfl | hy)
      · exact h
      · exact hy
  · rw [List.mem_cons]

theorem insertNat_toFinset (x : Nat) (l : List Nat) :
    (insertNat x l).toFinset = insert x l.toFinset := by
  unfold insertNat
  split
  · rename_i h
    exact (Finset.insert_eq_self.mpr (List.mem_toFinset.mpr h)).symm
  · exact List.toFinset_cons

theorem insertNat_of_mem (x : Nat) (l : List Nat) (h : x ∈ l) :
    insertNat x l = l := by
  unfold insertNat
  rw [if_pos h]

theorem wf_ird_inputs (g : DefGraph) (hwf : wfDG g = true) (v : Nat)
    (hv : v ∈ valsOf g) (d : Nat) (hd : g.valDef v = some d) :
    ∀ i ∈ g.exprIns d, i ∈ valsOf g := by
  intro i hi
  have h1 : Stmt.v v ∈ g.stmts := (mem_valsOf g v).mp hv
  have h2 : Stmt.e d ∈ g.stmts := by
    refine wfDG_next g hwf (Stmt.v v) h1 (Stmt.e d) ?_
    show Stmt.e d ∈ nextStmts g (Stmt.v v)
    simp [nextStmts, hd]
  have h3 : Stmt.v i ∈ g.stmts := by
    refine wfDG_next g hwf (Stmt.e d) h2 (Stmt.v i) ?_
    show Stmt.v i ∈ (g.exprIns d).map Stmt.v
    exact List.mem_map.mpr ⟨i, hi, rfl⟩
  exact (mem_valsOf g i).mpr h3

theorem findIdx_append_all_false (p : Nat → Bool) :
    ∀ (l1 l2 : List Nat), (∀ x ∈ l1, p x = false) →
      (l1 ++ l2).findIdx p = l1.length + l2.findIdx p := by
  intro l1
  induction l1 with
  | nil => intro l2 hall; simp
  | cons a l1 ih =>
    intro l2 hall
    rw [List.cons_append, List.findIdx_cons,
      hall a (List.mem_cons_self a l1)]
    simp only [cond_false]
    rw [ih l2 (fun x hx => hall x (List.mem_cons_of_mem a hx)),
      List.length_cons]
    omega

theorem findIdx_append_lt (p : Nat → Bool) :
    ∀ (l1 l2 : List Nat), l1.findIdx p < l1.length →
      (l1 ++ l2).findIdx p = l1.findIdx p := by
  intro l1
  induction l1 with
  | nil => intro l2 h; exact absurd h (by simp)
  | cons a l1 ih =>
    intro l2 h
    rw [List.findIdx_cons] at h
    rw [List.cons_append, List.findIdx_cons, List.findIdx_cons]
    cases hpa : p a with
    | true => simp only [hpa, cond_true]
    | false =>
      simp only [hpa, cond_false] at h ⊢
      rw [List.length_cons] at h
      rw [ih l2 (by omega)]

theorem findIdx_le_length (p : Nat → Bool) :
    ∀ (l : List Nat), l.findIdx p ≤ l.length := by
  intro l
  induction l with
  | nil => simp
  | cons a l ih =>
    rw [List.findIdx_cons]
    cases hpa : p a with
    | true => simp
    | false =>
      simp only [cond_false]
      rw [List.length_cons]
      omega

theorem findIdx_lt_of_mem (l : List Nat) (p : Nat → Bool) (x : Nat)
    (hx : x ∈ l) (hpx : p x = true) : l.findIdx p < l.length := by
  induction l with
  | nil => exact absurd hx (List.not_mem_nil x)
  | cons a l ih =>
    rw [List.findIdx_cons, List.length_cons]
    cases hpa : p a with
    | true => simp
    | false =>
      simp only [cond_false]
      rw [List.mem_cons] at hx
      rcases hx with rfl | hx
      · exact absurd hpx (by rw [hpa]; simp)
      · have := ih hx
        omega

theorem irdRun_ex (g : DefGraph) (val : Nat) (hwf : wfDG g = true) :
    ∀ (u d : Nat) (queue visited : List Nat),
      (∀ x ∈ queue, x ∈ valsOf g) →
      ucount g visited = u → firstUnvis queue visited = d →
      ∃ fuel b, irdRun g val fuel queue visited = some b := by
  intro u
  induction u using Nat.strong_induction_on with
  | _ u ihu =>
  intro d
  induction d using Nat.strong_induction_on with
  | _ d ihd =>
  intro queue visited hq hu hd
  match queue, hq, hd with
  | [], hq, hd => exact ⟨1, false, irdRun_nil g val 0 visited⟩
  | v :: rest, hq, hd =>
    have hvv0 : v ∈ valsOf g := hq v (List.mem_cons_self v rest)
    have hrest : ∀ x ∈ rest, x ∈ valsOf g :=
      fun x hx => hq x (List.mem_cons_of_mem v hx)
    by_cases hvis : v ∈ visited
    · -- same unvisited count, first-unvisited index decreases
      have hins : insertNat v visited = visited := insertNat_of_mem v visited hvis
      have hpred : decide (v ∉ visited) = false := by
        simp [hvis]
      have hd2 : d = rest.findIdx (fun x => decide (x ∉ visited)) + 1 := by
        rw [← hd]
        unfold firstUnvis
        simp only [List.findIdx_cons, hpred, cond_false]
      cases hdef : g.valDef v with
      | none =>
        obtain ⟨fuel, b, hb⟩ := ihd (d - 1) (by omega) rest visited hrest hu
          (by unfold firstUnvis; omega)
        refine ⟨fuel + 1, b, ?_⟩
        rw [irdRun_cons_none g val fuel v rest visited hdef, hins]
        exact hb
      | some dd =>
        by_cases hfound : val ∈ g.exprIns dd
        · exact ⟨1, true, irdRun_cons_found g val 0 v rest visited dd hdef hfound⟩
        · have hfl : ∀ x ∈ (g.exprIns dd).filter
              (fun i => decide (i ∉ insertNat v visited)), x ∈ valsOf g := by
            intro x hx
            exact wf_ird_inputs g hwf v hvv0 dd hdef x (List.mem_of_mem_filter hx)
          have hlt : firstUnvis (rest ++ (g.exprIns dd).filter
              (fun i => decide (i ∉ insertNat v visited))) visited < d := by
            unfold firstUnvis
            rcases Nat.lt_or_ge (rest.findIdx (fun x => decide (x ∉ visited)))
              rest.length with hcase | hcase
            · rw [findIdx_append_lt _ rest _ hcase]
              omega
            · have hall : ∀ x ∈ rest, decide (x ∉ visited) = false := by
                intro x hx
                cases hdec : decide (x ∉ visited) with
                | false => rfl
                | true =>
                  have hxm := findIdx_lt_of_mem rest
                    (fun y => decide (y ∉ visited)) x hx hdec
                  omega
              rw [findIdx_append_all_false
                (fun x => decide (x ∉ visited)) rest _ hall]
              have hfle := findIdx_le_length (fun i => decide (i ∉ insertNat v visited)) ((g.exprIns dd).filter (fun i => decide (i ∉ insertNat v visited)))
              have hflz : ((g.exprIns dd).filter
                  (fun i => decide (i ∉ insertNat v visited))).findIdx
                  (fun x => decide (x ∉ visited)) = 0 := by
                cases hfl2 : (g.exprIns dd).filter
                    (fun i => decide (i ∉ insertNat v visited)) with
                | nil => simp
                | cons f fl2 =>
                  have hfmem : f ∈ (g.exprIns dd).filter
                      (fun i => decide (i ∉ insertNat v visited)) := by
                    rw [hfl2]; exact List.mem_cons_self f fl2
                  have hfnv : f ∉ visited := by
                    have h5 := List.of_mem_filter hfmem
                    rw [hins] at h5
                    exact of_decide_eq_true h5
                  have hft : decide (f ∉ visited) = true := decide_eq_true hfnv
                  simp only [List.findIdx_cons, hft, cond_true]
              rw [hflz]
              have hrge : rest.findIdx (fun x => decide (x ∉ visited)) = rest.length := le_antisymm (findIdx_le_length _ rest) hcase
              omega
          obtain ⟨fuel, b, hb⟩ := ihd _ hlt
            (rest ++ (g.exprIns dd).filter
              (fun i => decide (i ∉ insertNat v visited)))
            visited
            (by
              intro x hx
              rw [List.mem_append] at hx
              rcases hx with hx | hx
              · exact hrest x hx
              · exact hfl x hx)
            hu rfl
          refine ⟨fuel + 1, b, ?_⟩
          rw [irdRun_cons_notfound g val fuel v rest visited dd hdef hfound]
          rw [hins] at hb ⊢
          exact hb
    · -- v newly visited: unvisited count decreases
      have hvmem : v ∈ (valsOf g).toFinset \ visited.toFinset := by
        rw [Finset.mem_sdiff, List.mem_toFinset, List.mem_toFinset]
        exact ⟨hvv0, hvis⟩
      have hueq : ucount g (insertNat v visited) = u - 1 := by
        unfold ucount
        rw [insertNat_toFinset]
        have heq : (valsOf g).toFinset \ (insert v visited.toFinset) =
            ((valsOf g).toFinset \ visited.toFinset).erase v := by
          ext x
          rw [Finset.mem_erase, Finset.mem_sdiff, Finset.mem_sdiff,
            Finset.mem_insert]
          constructor
          · rintro ⟨hx, hxn⟩
            exact ⟨fun hxv => hxn (Or.inl hxv), hx,
              fun hc => hxn (Or.inr hc)⟩
          · rintro ⟨hxv, hx, hxn⟩
            refine ⟨hx, ?_⟩
            rintro (rfl | hc)
            · exact hxv rfl
            · exact hxn hc
        rw [heq, Finset.card_erase_of_mem hvmem]
        unfold ucount at hu
        omega
      have hult : u - 1 < u := by
        have hpos : 0 < u := by
          unfold ucount at hu
          have := Finset.card_pos.mpr ⟨v, hvmem⟩
          omega
        omega
      cases hdef : g.valDef v with
      | none =>
        obtain ⟨fuel, b, hb⟩ := ihu (u - 1) hult
          (firstUnvis rest (insertNat v visited)) rest (insertNat v visited)
          hrest hueq rfl
        refine ⟨fuel + 1, b, ?_⟩
        rw [irdRun_cons_none g val fuel v rest visited hdef]
        exact hb
      | some dd =>
        by_cases hfound : val ∈ g.exprIns dd
        · exact ⟨1, true, irdRun_cons_found g val 0 v rest visited dd hdef hfound⟩
        · have hfl : ∀ x ∈ (g.exprIns dd).filter
              (fun i => decide (i ∉ insertNat v visited)), x ∈ valsOf g := by
            intro x hx
            exact wf_ird_inputs g hwf v hvv0 dd hdef x (List.mem_of_mem_filter hx)
          obtain ⟨fuel, b, hb⟩ := ihu (u - 1) hult
            (firstUnvis (rest ++ (g.exprIns dd).filter
              (fun i => decide (i ∉ insertNat v visited)))
              (insertNat v visited))
            (rest ++ (g.exprIns dd).filter
              (fun i => decide (i ∉ insertNat v visited)))
            (insertNat v visited)
            (by
              intro x hx
              rw [List.mem_append] at hx
              rcases hx with hx | hx
              · exact hrest x hx
              · exact hfl x hx)
            hueq rfl
          refine ⟨fuel + 1, b, ?_⟩
          rw [irdRun_cons_notfound g val fuel v rest visited dd hdef hfound]
          exact hb

/-- C5 counterexample: `gUnreach` contains a definition cycle (value 1 is
defined by expression 1 which takes value 1 as input), yet the whole-graph
check started from the output value 0 — which does not reach the cycle —
returns the empty list. -/
theorem checkCycle_unreachable_counterexample :
    (Stmt.v 1 ∈ gUnreach.stmts ∧
      chainNextb gUnreach [Stmt.v 1, Stmt.e 1] = true ∧
      Stmt.v 1 ∈ nextStmts gUnreach (Stmt.e 1)) ∧
    wfDG gUnreach = true ∧
    checkCycle gUnreach [] [Stmt.v 0] = some [] := by
  decide

/-- C5 (amended): (a) if some target value reaches — through a chain of
definitions and their inputs — a statement lying on a definition cycle, the
whole-graph cycle check (empty boundary set) returns a non-empty list;
(b) for every acyclic definition graph (witnessed by a rank function
decreasing along `nextStmts`), checkCycle started from any boundary and
target sets returns the empty list. -/
theorem checkCycle_spec :
    (∀ (g : DefGraph) (tos pre cyc : List Stmt),
       wfDG g = true → (∀ x ∈ tos, x ∈ g.stmts) →
       cyc ≠ [] → chainNextb g (pre ++ cyc) = true →
       headS cyc ∈ nextStmts g (lastS cyc) →
       headS (pre ++ cyc) ∈ tos →
       ∃ r, checkCycle g [] tos = some r ∧ r ≠ []) ∧
    (∀ (g : DefGraph) (fr tos : List Stmt) (rank : Stmt → Nat),
       wfDG g = true → (∀ x ∈ tos, x ∈ g.stmts) →
       (∀ s ∈ g.stmts, ∀ t ∈ nextStmts g s, rank t < rank s) →
       checkCycle g fr tos = some []) := by
  constructor
  · intro g tos pre cyc hwf htos hcne hch hwrap hhead
    have hsome := ccRun_isSome g [] hwf (ccFuel g tos) [] [] tos htos
      (ccPot_init g tos)
    obtain ⟨r, hr⟩ := Option.isSome_iff_exists.mp hsome
    refine ⟨r, hr, ?_⟩
    intro hc
    subst hc
    exact ccRun_finds_cycle g [] pre cyc hcne hch hwrap
      (fun y hy => List.not_mem_nil y) (ccFuel g tos) [] [] tos
      (QD.nil none tos) (Or.inl hhead)
      (fun y hy => List.not_mem_nil y) hr
  · intro g fr tos rank hwf htos hrank
    have hsome := ccRun_isSome g fr hwf (ccFuel g tos) [] [] tos htos
      (ccPot_init g tos)
    obtain ⟨r, hr⟩ := Option.isSome_iff_exists.mp hsome
    have hnil := ccRun_acyclic g fr hwf rank hrank (ccFuel g tos) [] [] tos
      (QD.nil none tos) htos (fun x hx => absurd hx (List.not_mem_nil x))
      r hr
    unfold checkCycle
    rw [hr, hnil]

/-- Witness for C5: the self-cycle graph returns a non-empty list from
target value 1, and the acyclic graph returns the empty list. -/
theorem checkCycle_spec_witness :
    ((∃ r, checkCycle gCyc [] [Stmt.v 1] = some r ∧ r ≠ []) ∧
      checkCycle gAcyc [] [Stmt.v 1] = some []) :=
  ⟨checkCycle_spec.1 gCyc [Stmt.v 1] [] [Stmt.v 1, Stmt.e 1]
      (by decide) (by decide) (by decide) (by decide) (by decide) (by decide),
    checkCycle_spec.2 gAcyc [] [Stmt.v 1] rankAcyc
      (by decide) (by decide) (by decide)⟩

/-- C10: on every finite statement graph closed under `nextStmts` — cyclic
graphs included — the cycle check with its computed fuel returns a result
(the fuel suffices, so the while loop terminates), and isRecursivelyDefined
terminates: some fuel makes its traversal return a result. -/
theorem cycle_traversals_terminate :
    (∀ (g : DefGraph) (fr tos : List Stmt), wfDG g = true →
       (∀ x ∈ tos, x ∈ g.stmts) →
       (checkCycle g fr tos).isSome = true) ∧
    (∀ (g : DefGraph) (val : Nat), wfDG g = true →
       Stmt.v val ∈ g.stmts →
       ∃ fuel b, isRecursivelyDefined g val fuel = some b) := by
  constructor
  · intro g fr tos hwf htos
    exact ccRun_isSome g fr hwf (ccFuel g tos) [] [] tos htos
      (ccPot_init g tos)
  · intro g val hwf hval
    refine irdRun_ex g val hwf (ucount g []) (firstUnvis [val] [])
      [val] [] ?_ rfl rfl
    intro x hx
    rw [List.mem_singleton] at hx
    subst hx
    exact (mem_valsOf g x).mpr hval

/-- Witness for C10 at the concrete cyclic graph. -/
theorem cycle_traversals_terminate_witness :
    (checkCycle gCyc [] [Stmt.v 1]).isSome = true ∧
    ∃ fuel b, isRecursivelyDefined gCyc 1 fuel = some b :=
  ⟨cycle_traversals_terminate.1 gCyc [] [Stmt.v 1] (by decide) (by decide),
    cycle_traversals_terminate.2 gCyc 1 (by decide) (by decide)⟩

end NvFuser
